import Mathlib

/-!
Verification development for the cv-search hybrid retrieval service.

The Go sources are shallowly embedded in Lean:
* `float64` scores and weights are modelled as `ℚ`;
* Go slices become `List`s; Go maps become association lists whose
  iteration order is the insertion order (one of the orders a Go map
  iteration may produce);
* `sort.Slice` (a comparison sort driven by a strict `>` comparator) is
  modelled by a comparison sort over the reflexive closure of the same
  comparator; for elements with distinct keys any comparison sort agrees
  with this model;
* database tables become lists of rows inside an explicit state record,
  and SQL statements become functions on that state;
* network collaborators (LLM, embeddings, SQL transport) are inputs of
  the modelled functions: a retriever outcome is an `Except`, the
  enrichment lookup is a function parameter.
-/

namespace CvSearch

/-! ## Fusion layer data model (src: hybrid search engine, `part_012`) -/

/-- Result row of the BM25 keyword retriever.  The `Rank` field holds the
PostgreSQL `ts_rank` relevance score (the raw score of the list), as in
`BM25Result` of the source.  The `Headline` display field is omitted. -/
structure BM25Result where
  CandidateID : Int
  Name : String
  Rank : ℚ
  deriving DecidableEq, Repr

/-- Result row of the vector retriever (`VectorSearchResult` in the source). -/
structure VectorSearchResult where
  CandidateID : Int
  PersonID : String
  Similarity : ℚ
  deriving DecidableEq, Repr

/-- Skill node attached to a candidate (`SkillNode` in the source). -/
structure SkillNode where
  Name : String
  Proficiency : String
  deriving DecidableEq, Repr

/-- Company node attached to a candidate (`CompanyNode` in the source). -/
structure CompanyNode where
  Name : String
  Position : String
  IsCurrent : Bool
  deriving DecidableEq, Repr

/-- Education node attached to a candidate (`EducationNode` in the source). -/
structure EducationNode where
  Institution : String
  Degree : String
  Field : String
  deriving DecidableEq, Repr

/-- Result row of the graph retriever (`CandidateResult` in the source).
Display-only fields (`CVID`, `CurrentPosition`) are omitted; the fields
consulted by fusion and scoring are kept.  `TotalExperience` is
`interface{}` in the source (int or null), modelled as `Option Int`. -/
structure CandidateResult where
  PersonID : String
  Name : String
  Seniority : String
  TotalExperience : Option Int
  Skills : List SkillNode
  Companies : List CompanyNode
  Education : List EducationNode
  MatchScore : ℚ
  MatchReasons : List String
  deriving DecidableEq, Repr

/-- Candidate carrying scores from all sources (`FusedCandidate` in the
source).  Zero values mirror Go's zero-initialised struct fields. -/
structure FusedCandidate where
  CandidateID : Int := 0
  PersonID : String := ""
  Name : String := ""
  BM25Score : ℚ := 0
  VectorScore : ℚ := 0
  GraphScore : ℚ := 0
  FusionScore : ℚ := 0
  LLMScore : ℚ := 0
  LLMReasoning : String := ""
  Rank : Nat := 0
  deriving DecidableEq, Repr

/-- Fusion weights and limits (`HybridSearchConfig` in the source). -/
structure HybridSearchConfig where
  BM25Weight : ℚ
  VectorWeight : ℚ
  GraphWeight : ℚ
  TopK : Int
  FinalTopN : Int
  deriving DecidableEq, Repr

/-- Default configuration (`DefaultHybridConfig` in the source). -/
def DefaultHybridConfig : HybridSearchConfig :=
  { BM25Weight := 3/10, VectorWeight := 4/10, GraphWeight := 3/10,
    TopK := 100, FinalTopN := 0 }

/-! ## Max-score helpers (`maxBM25Score`, `maxVectorScore`, `maxGraphScore`)

Each helper scans the whole list starting from the first element's score
and falls back to a constant when the list is empty or the maximum is 0,
exactly as in the source. -/

/-- Maximum `Rank` of a BM25 result list, 1.0 when empty or all-zero. -/
def maxBM25Score : List BM25Result → ℚ
  | [] => 1
  | r :: rs =>
      let m := rs.foldl (fun acc x => if x.Rank > acc then x.Rank else acc) r.Rank
      if m = 0 then 1 else m

/-- Maximum `Similarity` of a vector result list, 1.0 when empty or all-zero. -/
def maxVectorScore : List VectorSearchResult → ℚ
  | [] => 1
  | r :: rs =>
      let m := rs.foldl (fun acc x => if x.Similarity > acc then x.Similarity else acc) r.Similarity
      if m = 0 then 1 else m

/-- Maximum `MatchScore` of a graph result list, 1.0 when empty and 100.0
when the maximum is 0 (the source comments that graph scores are 0-100). -/
def maxGraphScore : List CandidateResult → ℚ
  | [] => 1
  | r :: rs =>
      let m := rs.foldl (fun acc x => if x.MatchScore > acc then x.MatchScore else acc) r.MatchScore
      if m = 0 then 100 else m

/-! ## The score map

The Go `map[string]*FusedCandidate` is modelled as an association list in
insertion order.  `upsertWith k init f m` is the source's pattern

    if _, exists := scoreMap[k]; !exists { scoreMap[k] = init }
    mutate scoreMap[k] by f

compressed into one step: the entry at `k` (the existing one, or `init`
freshly inserted) is replaced by `f` of it. -/

/-- Lookup in the modelled score map. -/
def lookupKey (k : String) : List (String × FusedCandidate) → Option FusedCandidate
  | [] => none
  | (a, b) :: rest => if a = k then some b else lookupKey k rest

/-- Insert-or-update in the modelled score map (see section comment). -/
def upsertWith (k : String) (init : FusedCandidate) (f : FusedCandidate → FusedCandidate) :
    List (String × FusedCandidate) → List (String × FusedCandidate)
  | [] => [(k, f init)]
  | (a, b) :: rest =>
      if a = k then (a, f b) :: rest else (a, b) :: upsertWith k init f rest

/-- Map key used for BM25 rows: `fmt.Sprintf("cand_%d", r.CandidateID)`. -/
def bm25Key (id : Int) : String := "cand_" ++ toString id

/-- BM25 pass of `fuseResults`: normalised score plus reciprocal-rank
component, averaged; `i` is the 0-based loop index. -/
def bm25Loop (maxB : ℚ) : List BM25Result → Nat → List (String × FusedCandidate) →
    List (String × FusedCandidate)
  | [], _, m => m
  | r :: rest, i, m =>
      bm25Loop maxB rest (i + 1)
        (upsertWith (bm25Key r.CandidateID)
          { CandidateID := r.CandidateID, Name := r.Name }
          (fun c => { c with BM25Score := (r.Rank / maxB + 1 / (60 + (i : ℚ) + 1)) / 2 }) m)

/-- Vector pass of `fuseResults`. -/
def vectorLoop (maxV : ℚ) : List VectorSearchResult → Nat → List (String × FusedCandidate) →
    List (String × FusedCandidate)
  | [], _, m => m
  | r :: rest, i, m =>
      vectorLoop maxV rest (i + 1)
        (upsertWith r.PersonID
          { PersonID := r.PersonID }
          (fun c => { c with VectorScore := (r.Similarity / maxV + 1 / (60 + (i : ℚ) + 1)) / 2 }) m)

/-- Graph pass of `fuseResults`; the source also overwrites `Name` with
the graph row's name after setting the score. -/
def graphLoop (maxG : ℚ) : List CandidateResult → Nat → List (String × FusedCandidate) →
    List (String × FusedCandidate)
  | [], _, m => m
  | r :: rest, i, m =>
      graphLoop maxG rest (i + 1)
        (upsertWith r.PersonID
          { PersonID := r.PersonID, Name := r.Name }
          (fun c => { c with GraphScore := (r.MatchScore / maxG + 1 / (60 + (i : ℚ) + 1)) / 2,
                             Name := r.Name }) m)

/-! ## Sorting

`sort.Slice(results, less)` with `less i j := score i > score j` is an
unstable comparison sort by descending score.  It is modelled by a
stable insertion sort over the reflexive closure `score j ≤ score i` of
the same comparator; on elements with pairwise distinct keys every
comparison sort produces this order. -/

/-- Insert one element into a list sorted by `le`. -/
def insSorted {α : Type} (le : α → α → Bool) (x : α) : List α → List α
  | [] => [x]
  | b :: bs => if le x b then x :: b :: bs else b :: insSorted le x bs

/-- Comparison sort by `le` (see section comment). -/
def sortByLe {α : Type} (le : α → α → Bool) : List α → List α
  | [] => []
  | x :: xs => insSorted le x (sortByLe le xs)

/-- Rank assignment `results[i].Rank = i + 1`, starting from `i0`. -/
def assignRanks : Nat → List FusedCandidate → List FusedCandidate
  | _, [] => []
  | i, c :: rest => { c with Rank := i } :: assignRanks (i + 1) rest

/-- Fusion of the three retriever lists (`fuseResults` in the source):
three passes over the score map, fusion-score computation, sort by
descending fusion score, then 1-based rank assignment. -/
def fuseResults (bm25 : List BM25Result) (vector : List VectorSearchResult)
    (graph : List CandidateResult) (config : HybridSearchConfig) : List FusedCandidate :=
  let m1 := bm25Loop (maxBM25Score bm25) bm25 0 []
  let m2 := vectorLoop (maxVectorScore vector) vector 0 m1
  let m3 := graphLoop (maxGraphScore graph) graph 0 m2
  let results := m3.map (fun p =>
    { p.2 with FusionScore := config.BM25Weight * p.2.BM25Score +
        config.VectorWeight * p.2.VectorScore + config.GraphWeight * p.2.GraphScore })
  let sorted := sortByLe (fun a b => decide (b.FusionScore ≤ a.FusionScore)) results
  assignRanks 1 sorted

/-- Smoke check of the fusion pipeline on a one-element vector list. -/
theorem fuseResults_smoke :
    (fuseResults [] [⟨0, "person_a", 1⟩] [] DefaultHybridConfig).map
      (fun c => (c.PersonID, c.VectorScore, c.FusionScore, c.Rank)) =
    [("person_a", 31/61, (4/10) * (31/61), 1)] := by
  simp [fuseResults, vectorLoop, bm25Loop, graphLoop, maxVectorScore, maxBM25Score,
    maxGraphScore, upsertWith, sortByLe, insSorted, assignRanks, DefaultHybridConfig]
  norm_num

/-! ## Spec-side contribution functions

These definitions transcribe the specification text of the fusion layer:
in list `L` at 1-based rank `r` with raw score `s` the contribution is
`(s / max_raw(L) + 1/(60+r)) / 2`, a person absent from a list
contributes 0, and `max_raw(L)` is the maximum raw score in `L`.  They
are written from the spec's words for comparison with `fuseResults`. -/

/-- Maximum raw score of a list, as the spec's `max_raw(L)`. -/
def specMaxRaw (scores : List ℚ) : ℚ := (scores.max?).getD 0

/-- Side condition under which the spec formula `s / max_raw(L)` is a
well-defined real division: either the maximum raw score is positive, or
every raw score in the list is 0 (in which case both the spec formula
and the source, which divides by a positive fallback, yield 0). -/
def maxCond (scores : List ℚ) : Prop := 0 < specMaxRaw scores ∨ ∀ s ∈ scores, s = 0

/-- Spec contribution of person `k` on the vector axis, walking the list
at 1-based rank `rank`; 0 when absent. -/
def specVectorAux (maxRaw : ℚ) (k : String) : Nat → List VectorSearchResult → ℚ
  | _, [] => 0
  | rank, r :: rest =>
      if r.PersonID = k then (r.Similarity / maxRaw + 1 / (60 + (rank : ℚ))) / 2
      else specVectorAux maxRaw k (rank + 1) rest

/-- Spec contribution of person `k` on the graph axis. -/
def specGraphAux (maxRaw : ℚ) (k : String) : Nat → List CandidateResult → ℚ
  | _, [] => 0
  | rank, r :: rest =>
      if r.PersonID = k then (r.MatchScore / maxRaw + 1 / (60 + (rank : ℚ))) / 2
      else specGraphAux maxRaw k (rank + 1) rest

/-- Spec contribution on the keyword axis; rows of the BM25 list are
identified by their fused-map key `bm25Key CandidateID`. -/
def specBM25Aux (maxRaw : ℚ) (k : String) : Nat → List BM25Result → ℚ
  | _, [] => 0
  | rank, r :: rest =>
      if bm25Key r.CandidateID = k then (r.Rank / maxRaw + 1 / (60 + (rank : ℚ))) / 2
      else specBM25Aux maxRaw k (rank + 1) rest

/-- Spec contribution of person `k` in the vector list (rank starts at 1). -/
def specVectorContribution (v : List VectorSearchResult) (k : String) : ℚ :=
  specVectorAux (specMaxRaw (v.map (fun r => r.Similarity))) k 1 v

/-- Spec contribution of person `k` in the graph list (rank starts at 1). -/
def specGraphContribution (g : List CandidateResult) (k : String) : ℚ :=
  specGraphAux (specMaxRaw (g.map (fun r => r.MatchScore))) k 1 g

/-- Spec contribution of key `k` in the keyword list (rank starts at 1). -/
def specBM25Contribution (b : List BM25Result) (k : String) : ℚ :=
  specBM25Aux (specMaxRaw (b.map (fun r => r.Rank))) k 1 b

/-! ## Association-map lemmas -/

/-- Keys of the modelled score map. -/
def keysOf (m : List (String × FusedCandidate)) : List String := m.map (fun p => p.1)

/-- Value stored at the upserted key: the update applied to the previous
entry, or to the initial value when the key was absent. -/
theorem lookupKey_upsertWith_self (k : String) (init : FusedCandidate)
    (f : FusedCandidate → FusedCandidate) (m : List (String × FusedCandidate)) :
    lookupKey k (upsertWith k init f m) = some (f ((lookupKey k m).getD init)) := by
  induction m with
  | nil => simp [upsertWith, lookupKey]
  | cons p rest ih =>
      obtain ⟨a, b⟩ := p
      by_cases h : a = k
      · simp [upsertWith, lookupKey, h]
      · simp [upsertWith, lookupKey, h, ih]

/-- Other keys are untouched by an upsert. -/
theorem lookupKey_upsertWith_ne {k' k : String} (h : k' ≠ k) (init : FusedCandidate)
    (f : FusedCandidate → FusedCandidate) (m : List (String × FusedCandidate)) :
    lookupKey k' (upsertWith k init f m) = lookupKey k' m := by
  induction m with
  | nil => simp [upsertWith, lookupKey, Ne.symm h]
  | cons p rest ih =>
      obtain ⟨a, b⟩ := p
      by_cases hp : a = k
      · have hne : ¬ a = k' := by rw [hp]; exact fun e => h e.symm
        simp [upsertWith, lookupKey, hp, hne, Ne.symm h]
      · by_cases hp' : a = k'
        · simp [upsertWith, lookupKey, hp, hp', h]
        · simp [upsertWith, lookupKey, hp, hp', ih]

/-- Keys after an upsert: unchanged when the key was present, appended
otherwise. -/
theorem keysOf_upsertWith (k : String) (init : FusedCandidate)
    (f : FusedCandidate → FusedCandidate) (m : List (String × FusedCandidate)) :
    keysOf (upsertWith k init f m) = if k ∈ keysOf m then keysOf m else keysOf m ++ [k] := by
  induction m with
  | nil => simp [upsertWith, keysOf]
  | cons p rest ih =>
      obtain ⟨a, b⟩ := p
      by_cases hp : a = k
      · have hk : k ∈ keysOf ((a, b) :: rest) := List.mem_cons.mpr (Or.inl hp.symm)
        rw [if_pos hk]
        simp [upsertWith, hp, keysOf]
      · have h1 : keysOf (upsertWith k init f ((a, b) :: rest)) =
            a :: keysOf (upsertWith k init f rest) := by
          simp [upsertWith, hp, keysOf]
        rw [h1, ih]
        by_cases hk : k ∈ keysOf rest
        · rw [if_pos hk, if_pos (show k ∈ keysOf ((a, b) :: rest) from
            List.mem_cons.mpr (Or.inr hk))]
          simp [keysOf]
        · have hk2 : k ∉ keysOf ((a, b) :: rest) := by
            intro hmem
            rcases List.mem_cons.mp hmem with he | he
            · exact hp he.symm
            · exact hk he
          rw [if_neg hk, if_neg hk2]
          simp [keysOf]

/-- Upserts preserve distinctness of keys. -/
theorem keysOf_upsertWith_nodup {m : List (String × FusedCandidate)}
    (h : (keysOf m).Nodup) (k : String) (init : FusedCandidate)
    (f : FusedCandidate → FusedCandidate) : (keysOf (upsertWith k init f m)).Nodup := by
  rw [keysOf_upsertWith]
  by_cases hk : k ∈ keysOf m
  · simp [hk, h]
  · simp only [if_neg hk]
    simp [List.nodup_append, h, hk]

/-- A successful lookup is a member of the map. -/
theorem mem_of_lookupKey_eq_some {k : String} {c : FusedCandidate}
    {m : List (String × FusedCandidate)} (h : lookupKey k m = some c) : (k, c) ∈ m := by
  induction m with
  | nil => simp [lookupKey] at h
  | cons p rest ih =>
      obtain ⟨a, b⟩ := p
      by_cases hp : a = k
      · simp [lookupKey, hp] at h
        subst hp
        subst h
        exact List.mem_cons_self _ _
      · simp [lookupKey, hp] at h
        exact List.mem_cons_of_mem _ (ih h)

/-- Under distinct keys, membership determines the lookup. -/
theorem lookupKey_eq_some_of_mem {k : String} {c : FusedCandidate}
    {m : List (String × FusedCandidate)} (hnd : (keysOf m).Nodup) (h : (k, c) ∈ m) :
    lookupKey k m = some c := by
  induction m with
  | nil => simp at h
  | cons p rest ih =>
      obtain ⟨a, b⟩ := p
      have hna : a ∉ keysOf rest := (List.nodup_cons.mp hnd).1
      have hnd2 : (keysOf rest).Nodup := (List.nodup_cons.mp hnd).2
      rcases List.mem_cons.mp h with h | h
      · injection h with h1 h2
        subst h1
        subst h2
        simp [lookupKey]
      · have hk : a ≠ k := by
          intro e
          subst e
          exact hna (by simpa [keysOf] using List.mem_map_of_mem (fun q => q.1) h)
        simp [lookupKey, hk]
        exact ih hnd2 h

/-- Lookup succeeds exactly on the keys of the map. -/
theorem lookupKey_isSome_iff {k : String} {m : List (String × FusedCandidate)} :
    (lookupKey k m).isSome ↔ k ∈ keysOf m := by
  induction m with
  | nil => simp [lookupKey, keysOf]
  | cons p rest ih =>
      obtain ⟨a, b⟩ := p
      by_cases hp : a = k
      · simp [lookupKey, hp, keysOf]
      · have h1 : lookupKey k ((a, b) :: rest) = lookupKey k rest := by simp [lookupKey, hp]
        have h2 : (k ∈ keysOf ((a, b) :: rest)) ↔ k ∈ keysOf rest := by
          constructor
          · intro hmem
            rcases List.mem_cons.mp hmem with he | he
            · exact absurd he.symm hp
            · exact he
          · exact fun hmem => List.mem_cons_of_mem _ hmem
        rw [h1, h2]
        exact ih

/-- Every entry of an upsert result is an old entry, or the update of an
old entry at the upserted key, or the update of the initial value. -/
theorem mem_upsertWith {k' k : String} {c : FusedCandidate} {init : FusedCandidate}
    {f : FusedCandidate → FusedCandidate} {m : List (String × FusedCandidate)}
    (h : (k', c) ∈ upsertWith k init f m) :
    (k', c) ∈ m ∨ (k' = k ∧ ∃ c₀, ((k, c₀) ∈ m ∨ c₀ = init) ∧ c = f c₀) := by
  induction m with
  | nil =>
      simp [upsertWith] at h
      exact Or.inr ⟨h.1, init, Or.inr rfl, h.2⟩
  | cons p rest ih =>
      obtain ⟨a, b⟩ := p
      by_cases hp : a = k
      · rw [show upsertWith k init f ((a, b) :: rest) = (a, f b) :: rest by
          simp [upsertWith, hp]] at h
        rcases List.mem_cons.mp h with h | h
        · injection h with h1 h2
          subst hp
          exact Or.inr ⟨h1, b, Or.inl (h1 ▸ List.mem_cons_self _ _), h2⟩
        · exact Or.inl (List.mem_cons_of_mem _ h)
      · rw [show upsertWith k init f ((a, b) :: rest) = (a, b) :: upsertWith k init f rest by
          simp [upsertWith, hp]] at h
        rcases List.mem_cons.mp h with h | h
        · exact Or.inl (by simp [h])
        · rcases ih h with h | ⟨h1, c₀, h2, h3⟩
          · exact Or.inl (List.mem_cons_of_mem _ h)
          · refine Or.inr ⟨h1, c₀, ?_, h3⟩
            rcases h2 with h2 | h2
            · exact Or.inl (List.mem_cons_of_mem _ h2)
            · exact Or.inr h2

/-- Field of the entry stored at `k`, reading the zero-valued candidate
when `k` is absent (an absent person contributes 0 on every axis). -/
def fieldAt {β : Type} (sel : FusedCandidate → β) (k : String)
    (m : List (String × FusedCandidate)) : β := sel ((lookupKey k m).getD {})

/-- Membership in the keys after an upsert. -/
theorem mem_keysOf_upsertWith {k' k : String} {init : FusedCandidate}
    {f : FusedCandidate → FusedCandidate} {m : List (String × FusedCandidate)} :
    k' ∈ keysOf (upsertWith k init f m) ↔ k' ∈ keysOf m ∨ k' = k := by
  rw [keysOf_upsertWith]
  by_cases hk : k ∈ keysOf m
  · rw [if_pos hk]
    constructor
    · exact Or.inl
    · rintro (h | h)
      · exact h
      · exact h ▸ hk
  · rw [if_neg hk]
    simp [List.mem_append]

/-- An upsert leaves a field unchanged at every key, provided the update
does not write that field and the initial value agrees with the
zero-valued candidate on it. -/
theorem fieldAt_upsertWith {β : Type} (sel : FusedCandidate → β) {k' k : String}
    {init : FusedCandidate} {f : FusedCandidate → FusedCandidate}
    {m : List (String × FusedCandidate)}
    (hf : ∀ c, sel (f c) = sel c) (hi : sel init = sel {}) :
    fieldAt sel k' (upsertWith k init f m) = fieldAt sel k' m := by
  by_cases h : k' = k
  · subst h
    rw [fieldAt, fieldAt, lookupKey_upsertWith_self]
    cases hm : lookupKey k' m with
    | none => simp [hf, hi]
    | some c => simp [hf]
  · rw [fieldAt, fieldAt, lookupKey_upsertWith_ne h]

/-! ## Per-pass lemmas for the three fusion loops -/

theorem bm25Loop_lookup_absent {maxB : ℚ} {k : String} :
    ∀ (b : List BM25Result) (i : Nat) (m : List (String × FusedCandidate)),
    (∀ r ∈ b, bm25Key r.CandidateID ≠ k) →
    lookupKey k (bm25Loop maxB b i m) = lookupKey k m := by
  intro b
  induction b with
  | nil => intro i m _; rfl
  | cons r rest ih =>
      intro i m h
      rw [bm25Loop, ih (i + 1) _ (fun x hx => h x (List.mem_cons_of_mem _ hx))]
      exact lookupKey_upsertWith_ne (fun e => h r (List.mem_cons_self _ _) e.symm) _ _ _

theorem vectorLoop_lookup_absent {maxV : ℚ} {k : String} :
    ∀ (v : List VectorSearchResult) (i : Nat) (m : List (String × FusedCandidate)),
    (∀ r ∈ v, r.PersonID ≠ k) →
    lookupKey k (vectorLoop maxV v i m) = lookupKey k m := by
  intro v
  induction v with
  | nil => intro i m _; rfl
  | cons r rest ih =>
      intro i m h
      rw [vectorLoop, ih (i + 1) _ (fun x hx => h x (List.mem_cons_of_mem _ hx))]
      exact lookupKey_upsertWith_ne (fun e => h r (List.mem_cons_self _ _) e.symm) _ _ _

theorem graphLoop_lookup_absent {maxG : ℚ} {k : String} :
    ∀ (g : List CandidateResult) (i : Nat) (m : List (String × FusedCandidate)),
    (∀ r ∈ g, r.PersonID ≠ k) →
    lookupKey k (graphLoop maxG g i m) = lookupKey k m := by
  intro g
  induction g with
  | nil => intro i m _; rfl
  | cons r rest ih =>
      intro i m h
      rw [graphLoop, ih (i + 1) _ (fun x hx => h x (List.mem_cons_of_mem _ hx))]
      exact lookupKey_upsertWith_ne (fun e => h r (List.mem_cons_self _ _) e.symm) _ _ _

theorem bm25Loop_fieldAt_preserved {β : Type} (sel : FusedCandidate → β)
    (hf : ∀ c q, sel { c with BM25Score := q } = sel c)
    (hi : ∀ cid n, sel { CandidateID := cid, Name := n } = sel {}) {maxB : ℚ} :
    ∀ (b : List BM25Result) (i : Nat) (m : List (String × FusedCandidate)) (k : String),
    fieldAt sel k (bm25Loop maxB b i m) = fieldAt sel k m := by
  intro b
  induction b with
  | nil => intro i m k; rfl
  | cons r rest ih =>
      intro i m k
      rw [bm25Loop, ih]
      exact fieldAt_upsertWith sel (fun c => hf c _) (hi _ _)

theorem vectorLoop_fieldAt_preserved {β : Type} (sel : FusedCandidate → β)
    (hf : ∀ c q, sel { c with VectorScore := q } = sel c)
    (hi : ∀ pid, sel { PersonID := pid } = sel {}) {maxV : ℚ} :
    ∀ (v : List VectorSearchResult) (i : Nat) (m : List (String × FusedCandidate)) (k : String),
    fieldAt sel k (vectorLoop maxV v i m) = fieldAt sel k m := by
  intro v
  induction v with
  | nil => intro i m k; rfl
  | cons r rest ih =>
      intro i m k
      rw [vectorLoop, ih]
      exact fieldAt_upsertWith sel (fun c => hf c _) (hi _)

theorem graphLoop_fieldAt_preserved {β : Type} (sel : FusedCandidate → β)
    (hf : ∀ c q n, sel { c with GraphScore := q, Name := n } = sel c)
    (hi : ∀ pid n, sel { PersonID := pid, Name := n } = sel {}) {maxG : ℚ} :
    ∀ (g : List CandidateResult) (i : Nat) (m : List (String × FusedCandidate)) (k : String),
    fieldAt sel k (graphLoop maxG g i m) = fieldAt sel k m := by
  intro g
  induction g with
  | nil => intro i m k; rfl
  | cons r rest ih =>
      intro i m k
      rw [graphLoop, ih]
      exact fieldAt_upsertWith sel (fun c => hf c _ _) (hi _ _)

theorem bm25Loop_fieldAt (maxB : ℚ) :
    ∀ (b : List BM25Result), (b.map (fun r => bm25Key r.CandidateID)).Nodup →
    ∀ (i : Nat) (m : List (String × FusedCandidate)) (k : String),
    fieldAt (fun c => c.BM25Score) k (bm25Loop maxB b i m) =
      if b.any (fun r => bm25Key r.CandidateID = k) then specBM25Aux maxB k (i + 1) b
      else fieldAt (fun c => c.BM25Score) k m := by
  intro b
  induction b with
  | nil => intro _ i m k; simp [bm25Loop, specBM25Aux]
  | cons r rest ih =>
      intro hnd i m k
      have hnd1 : bm25Key r.CandidateID ∉ rest.map (fun x => bm25Key x.CandidateID) :=
        (List.nodup_cons.mp (by simpa using hnd)).1
      have hnd2 : (rest.map (fun x => bm25Key x.CandidateID)).Nodup :=
        (List.nodup_cons.mp (by simpa using hnd)).2
      rw [bm25Loop]
      by_cases hr : bm25Key r.CandidateID = k
      · subst hr
        have habs : ∀ x ∈ rest, bm25Key x.CandidateID ≠ bm25Key r.CandidateID :=
          fun x hx e => hnd1 (e ▸ List.mem_map_of_mem _ hx)
        have h1 : fieldAt (fun c => c.BM25Score) (bm25Key r.CandidateID)
            (bm25Loop maxB rest (i + 1)
              (upsertWith (bm25Key r.CandidateID) { CandidateID := r.CandidateID, Name := r.Name }
                (fun c => { c with BM25Score := (r.Rank / maxB + 1 / (60 + (i : ℚ) + 1)) / 2 })
                m)) =
            fieldAt (fun c => c.BM25Score) (bm25Key r.CandidateID)
              (upsertWith (bm25Key r.CandidateID) { CandidateID := r.CandidateID, Name := r.Name }
                (fun c => { c with BM25Score := (r.Rank / maxB + 1 / (60 + (i : ℚ) + 1)) / 2 })
                m) := by
          rw [fieldAt, fieldAt, bm25Loop_lookup_absent rest (i + 1) _ habs]
        rw [h1, fieldAt, lookupKey_upsertWith_self]
        have hany : (r :: rest).any (fun x => bm25Key x.CandidateID = bm25Key r.CandidateID)
            = true := by
          rw [List.any_cons]
          simp
        rw [if_pos hany]
        simp [specBM25Aux]
        ring_nf
      · rw [ih hnd2 (i + 1) _ k]
        by_cases hrest : rest.any (fun x => bm25Key x.CandidateID = k) = true
        · have hany : (r :: rest).any (fun x => bm25Key x.CandidateID = k) = true := by
            rw [List.any_cons, hrest]
            simp
          rw [if_pos hrest, if_pos hany]
          simp [specBM25Aux, hr]
        · have hany : ¬ ((r :: rest).any (fun x => bm25Key x.CandidateID = k) = true) := by
            rw [List.any_cons]
            simp only [Bool.or_eq_true, decide_eq_true_eq]
            rintro (h | h)
            · exact hr h
            · exact hrest h
          rw [if_neg hrest, if_neg hany, fieldAt, fieldAt,
            lookupKey_upsertWith_ne (fun e => hr e.symm)]

theorem vectorLoop_fieldAt (maxV : ℚ) :
    ∀ (v : List VectorSearchResult), (v.map (fun r => r.PersonID)).Nodup →
    ∀ (i : Nat) (m : List (String × FusedCandidate)) (k : String),
    fieldAt (fun c => c.VectorScore) k (vectorLoop maxV v i m) =
      if v.any (fun r => r.PersonID = k) then specVectorAux maxV k (i + 1) v
      else fieldAt (fun c => c.VectorScore) k m := by
  intro v
  induction v with
  | nil => intro _ i m k; simp [vectorLoop, specVectorAux]
  | cons r rest ih =>
      intro hnd i m k
      have hnd1 : r.PersonID ∉ rest.map (fun x => x.PersonID) :=
        (List.nodup_cons.mp (by simpa using hnd)).1
      have hnd2 : (rest.map (fun x => x.PersonID)).Nodup :=
        (List.nodup_cons.mp (by simpa using hnd)).2
      rw [vectorLoop]
      by_cases hr : r.PersonID = k
      · subst hr
        have habs : ∀ x ∈ rest, x.PersonID ≠ r.PersonID :=
          fun x hx e => hnd1 (e ▸ List.mem_map_of_mem _ hx)
        have h1 : fieldAt (fun c => c.VectorScore) r.PersonID
            (vectorLoop maxV rest (i + 1)
              (upsertWith r.PersonID { PersonID := r.PersonID }
                (fun c => { c with VectorScore := (r.Similarity / maxV + 1 / (60 + (i : ℚ) + 1)) / 2 })
                m)) =
            fieldAt (fun c => c.VectorScore) r.PersonID
              (upsertWith r.PersonID { PersonID := r.PersonID }
                (fun c => { c with VectorScore := (r.Similarity / maxV + 1 / (60 + (i : ℚ) + 1)) / 2 })
                m) := by
          rw [fieldAt, fieldAt, vectorLoop_lookup_absent rest (i + 1) _ habs]
        rw [h1, fieldAt, lookupKey_upsertWith_self]
        have hany : (r :: rest).any (fun x => x.PersonID = r.PersonID) = true := by
          rw [List.any_cons]
          simp
        rw [if_pos hany]
        simp [specVectorAux]
        ring_nf
      · rw [ih hnd2 (i + 1) _ k]
        by_cases hrest : rest.any (fun x => x.PersonID = k) = true
        · have hany : (r :: rest).any (fun x => x.PersonID = k) = true := by
            rw [List.any_cons, hrest]
            simp
          rw [if_pos hrest, if_pos hany]
          simp [specVectorAux, hr]
        · have hany : ¬ ((r :: rest).any (fun x => x.PersonID = k) = true) := by
            rw [List.any_cons]
            simp only [Bool.or_eq_true, decide_eq_true_eq]
            rintro (h | h)
            · exact hr h
            · exact hrest h
          rw [if_neg hrest, if_neg hany, fieldAt, fieldAt,
            lookupKey_upsertWith_ne (fun e => hr e.symm)]

theorem graphLoop_fieldAt (maxG : ℚ) :
    ∀ (g : List CandidateResult), (g.map (fun r => r.PersonID)).Nodup →
    ∀ (i : Nat) (m : List (String × FusedCandidate)) (k : String),
    fieldAt (fun c => c.GraphScore) k (graphLoop maxG g i m) =
      if g.any (fun r => r.PersonID = k) then specGraphAux maxG k (i + 1) g
      else fieldAt (fun c => c.GraphScore) k m := by
  intro g
  induction g with
  | nil => intro _ i m k; simp [graphLoop, specGraphAux]
  | cons r rest ih =>
      intro hnd i m k
      have hnd1 : r.PersonID ∉ rest.map (fun x => x.PersonID) :=
        (List.nodup_cons.mp (by simpa using hnd)).1
      have hnd2 : (rest.map (fun x => x.PersonID)).Nodup :=
        (List.nodup_cons.mp (by simpa using hnd)).2
      rw [graphLoop]
      by_cases hr : r.PersonID = k
      · subst hr
        have habs : ∀ x ∈ rest, x.PersonID ≠ r.PersonID :=
          fun x hx e => hnd1 (e ▸ List.mem_map_of_mem _ hx)
        have h1 : fieldAt (fun c => c.GraphScore) r.PersonID
            (graphLoop maxG rest (i + 1)
              (upsertWith r.PersonID { PersonID := r.PersonID, Name := r.Name }
                (fun c => { c with GraphScore := (r.MatchScore / maxG + 1 / (60 + (i : ℚ) + 1)) / 2,
                                   Name := r.Name })
                m)) =
            fieldAt (fun c => c.GraphScore) r.PersonID
              (upsertWith r.PersonID { PersonID := r.PersonID, Name := r.Name }
                (fun c => { c with GraphScore := (r.MatchScore / maxG + 1 / (60 + (i : ℚ) + 1)) / 2,
                                   Name := r.Name })
                m) := by
          rw [fieldAt, fieldAt, graphLoop_lookup_absent rest (i + 1) _ habs]
        rw [h1, fieldAt, lookupKey_upsertWith_self]
        have hany : (r :: rest).any (fun x => x.PersonID = r.PersonID) = true := by
          rw [List.any_cons]
          simp
        rw [if_pos hany]
        simp [specGraphAux]
        ring_nf
      · rw [ih hnd2 (i + 1) _ k]
        by_cases hrest : rest.any (fun x => x.PersonID = k) = true
        · have hany : (r :: rest).any (fun x => x.PersonID = k) = true := by
            rw [List.any_cons, hrest]
            simp
          rw [if_pos hrest, if_pos hany]
          simp [specGraphAux, hr]
        · have hany : ¬ ((r :: rest).any (fun x => x.PersonID = k) = true) := by
            rw [List.any_cons]
            simp only [Bool.or_eq_true, decide_eq_true_eq]
            rintro (h | h)
            · exact hr h
            · exact hrest h
          rw [if_neg hrest, if_neg hany, fieldAt, fieldAt,
            lookupKey_upsertWith_ne (fun e => hr e.symm)]

/-! ## Keys produced by the three passes -/

theorem mem_keysOf_bm25Loop {maxB : ℚ} :
    ∀ (b : List BM25Result) (i : Nat) (m : List (String × FusedCandidate)) (k : String),
    k ∈ keysOf (bm25Loop maxB b i m) ↔
      k ∈ keysOf m ∨ ∃ r ∈ b, bm25Key r.CandidateID = k := by
  intro b
  induction b with
  | nil => intro i m k; simp [bm25Loop]
  | cons r rest ih =>
      intro i m k
      rw [bm25Loop, ih]
      rw [mem_keysOf_upsertWith]
      constructor
      · rintro ((h | h) | h)
        · exact Or.inl h
        · exact Or.inr ⟨r, List.mem_cons_self _ _, h.symm⟩
        · obtain ⟨x, hx, he⟩ := h
          exact Or.inr ⟨x, List.mem_cons_of_mem _ hx, he⟩
      · rintro (h | ⟨x, hx, he⟩)
        · exact Or.inl (Or.inl h)
        · rcases List.mem_cons.mp hx with hx | hx
          · exact Or.inl (Or.inr (by rw [← he, hx]))
          · exact Or.inr ⟨x, hx, he⟩

theorem mem_keysOf_vectorLoop {maxV : ℚ} :
    ∀ (v : List VectorSearchResult) (i : Nat) (m : List (String × FusedCandidate)) (k : String),
    k ∈ keysOf (vectorLoop maxV v i m) ↔
      k ∈ keysOf m ∨ ∃ r ∈ v, r.PersonID = k := by
  intro v
  induction v with
  | nil => intro i m k; simp [vectorLoop]
  | cons r rest ih =>
      intro i m k
      rw [vectorLoop, ih]
      rw [mem_keysOf_upsertWith]
      constructor
      · rintro ((h | h) | h)
        · exact Or.inl h
        · exact Or.inr ⟨r, List.mem_cons_self _ _, h.symm⟩
        · obtain ⟨x, hx, he⟩ := h
          exact Or.inr ⟨x, List.mem_cons_of_mem _ hx, he⟩
      · rintro (h | ⟨x, hx, he⟩)
        · exact Or.inl (Or.inl h)
        · rcases List.mem_cons.mp hx with hx | hx
          · exact Or.inl (Or.inr (by rw [← he, hx]))
          · exact Or.inr ⟨x, hx, he⟩

theorem mem_keysOf_graphLoop {maxG : ℚ} :
    ∀ (g : List CandidateResult) (i : Nat) (m : List (String × FusedCandidate)) (k : String),
    k ∈ keysOf (graphLoop maxG g i m) ↔
      k ∈ keysOf m ∨ ∃ r ∈ g, r.PersonID = k := by
  intro g
  induction g with
  | nil => intro i m k; simp [graphLoop]
  | cons r rest ih =>
      intro i m k
      rw [graphLoop, ih]
      rw [mem_keysOf_upsertWith]
      constructor
      · rintro ((h | h) | h)
        · exact Or.inl h
        · exact Or.inr ⟨r, List.mem_cons_self _ _, h.symm⟩
        · obtain ⟨x, hx, he⟩ := h
          exact Or.inr ⟨x, List.mem_cons_of_mem _ hx, he⟩
      · rintro (h | ⟨x, hx, he⟩)
        · exact Or.inl (Or.inl h)
        · rcases List.mem_cons.mp hx with hx | hx
          · exact Or.inl (Or.inr (by rw [← he, hx]))
          · exact Or.inr ⟨x, hx, he⟩

theorem keysOf_bm25Loop_nodup {maxB : ℚ} :
    ∀ (b : List BM25Result) (i : Nat) (m : List (String × FusedCandidate)),
    (keysOf m).Nodup → (keysOf (bm25Loop maxB b i m)).Nodup := by
  intro b
  induction b with
  | nil => intro i m h; exact h
  | cons r rest ih =>
      intro i m h
      rw [bm25Loop]
      exact ih _ _ (keysOf_upsertWith_nodup h _ _ _)

theorem keysOf_vectorLoop_nodup {maxV : ℚ} :
    ∀ (v : List VectorSearchResult) (i : Nat) (m : List (String × FusedCandidate)),
    (keysOf m).Nodup → (keysOf (vectorLoop maxV v i m)).Nodup := by
  intro v
  induction v with
  | nil => intro i m h; exact h
  | cons r rest ih =>
      intro i m h
      rw [vectorLoop]
      exact ih _ _ (keysOf_upsertWith_nodup h _ _ _)

theorem keysOf_graphLoop_nodup {maxG : ℚ} :
    ∀ (g : List CandidateResult) (i : Nat) (m : List (String × FusedCandidate)),
    (keysOf m).Nodup → (keysOf (graphLoop maxG g i m)).Nodup := by
  intro g
  induction g with
  | nil => intro i m h; exact h
  | cons r rest ih =>
      intro i m h
      rw [graphLoop]
      exact ih _ _ (keysOf_upsertWith_nodup h _ _ _)

/-! ## Sorting and rank-assignment lemmas -/

theorem mem_insSorted {α : Type} {le : α → α → Bool} {x c : α} :
    ∀ {l : List α}, c ∈ insSorted le x l ↔ c = x ∨ c ∈ l := by
  intro l
  induction l with
  | nil => simp [insSorted]
  | cons b bs ih =>
      by_cases h : le x b
      · simp [insSorted, h]
      · simp only [insSorted, if_neg h, List.mem_cons, ih]
        tauto

theorem insSorted_perm {α : Type} (le : α → α → Bool) (x : α) :
    ∀ (l : List α), (insSorted le x l).Perm (x :: l) := by
  intro l
  induction l with
  | nil => simp [insSorted]
  | cons b bs ih =>
      by_cases h : le x b
      · simp [insSorted, h]
      · rw [insSorted, if_neg h]
        exact (ih.cons b).trans (List.Perm.swap x b bs)

theorem sortByLe_perm {α : Type} (le : α → α → Bool) :
    ∀ (l : List α), (sortByLe le l).Perm l := by
  intro l
  induction l with
  | nil => simp [sortByLe]
  | cons x xs ih => exact (insSorted_perm le x (sortByLe le xs)).trans (ih.cons x)

theorem insSorted_pairwise {α : Type} {le : α → α → Bool}
    (htrans : ∀ a b c, le a b = true → le b c = true → le a c = true)
    (htot : ∀ a b, le a b = true ∨ le b a = true) (x : α) :
    ∀ {l : List α}, l.Pairwise (fun a b => le a b = true) →
    (insSorted le x l).Pairwise (fun a b => le a b = true) := by
  intro l
  induction l with
  | nil => intro _; simp [insSorted]
  | cons b bs ih =>
      intro h
      obtain ⟨hb, hbs⟩ := List.pairwise_cons.mp h
      by_cases hle : le x b
      · rw [insSorted, if_pos hle]
        refine List.pairwise_cons.mpr ⟨?_, h⟩
        intro y hy
        rcases List.mem_cons.mp hy with hy | hy
        · exact hy ▸ hle
        · exact htrans x b y hle (hb y hy)
      · rw [insSorted, if_neg hle]
        refine List.pairwise_cons.mpr ⟨?_, ih hbs⟩
        intro y hy
        rcases mem_insSorted.mp hy with hy | hy
        · rw [hy]
          rcases htot x b with h1 | h1
          · exact absurd h1 hle
          · exact h1
        · exact hb y hy

theorem sortByLe_pairwise {α : Type} (le : α → α → Bool)
    (htrans : ∀ a b c, le a b = true → le b c = true → le a c = true)
    (htot : ∀ a b, le a b = true ∨ le b a = true) :
    ∀ (l : List α), (sortByLe le l).Pairwise (fun a b => le a b = true) := by
  intro l
  induction l with
  | nil => simp [sortByLe]
  | cons x xs ih => exact insSorted_pairwise htrans htot x ih

theorem mem_assignRanks {c : FusedCandidate} :
    ∀ (i : Nat) (l : List FusedCandidate), c ∈ assignRanks i l →
    ∃ c₀ ∈ l, c = { c₀ with Rank := c.Rank } := by
  intro i l
  induction l generalizing i with
  | nil => intro h; simp [assignRanks] at h
  | cons x xs ih =>
      intro h
      rw [assignRanks] at h
      rcases List.mem_cons.mp h with h | h
      · exact ⟨x, List.mem_cons_self _ _, by rw [h]⟩
      · obtain ⟨c₀, hc₀, he⟩ := ih (i + 1) h
        exact ⟨c₀, List.mem_cons_of_mem _ hc₀, he⟩

theorem assignRanks_exists_mem {c₀ : FusedCandidate} :
    ∀ (i : Nat) (l : List FusedCandidate), c₀ ∈ l →
    ∃ n, { c₀ with Rank := n } ∈ assignRanks i l := by
  intro i l
  induction l generalizing i with
  | nil => intro h; simp at h
  | cons x xs ih =>
      intro h
      rcases List.mem_cons.mp h with h | h
      · exact ⟨i, by rw [assignRanks, h]; exact List.mem_cons_self _ _⟩
      · obtain ⟨n, hn⟩ := ih (i + 1) h
        exact ⟨n, by rw [assignRanks]; exact List.mem_cons_of_mem _ hn⟩

theorem assignRanks_pairwise (P : ℚ → ℚ → Prop) :
    ∀ (i : Nat) (l : List FusedCandidate),
    l.Pairwise (fun a b => P a.FusionScore b.FusionScore) →
    (assignRanks i l).Pairwise (fun a b => P a.FusionScore b.FusionScore) := by
  intro i l
  induction l generalizing i with
  | nil => intro _; simp [assignRanks]
  | cons x xs ih =>
      intro h
      obtain ⟨hx, hxs⟩ := List.pairwise_cons.mp h
      rw [assignRanks]
      refine List.pairwise_cons.mpr ⟨?_, ih (i + 1) hxs⟩
      intro y hy
      obtain ⟨y₀, hy₀, he⟩ := mem_assignRanks (i + 1) xs hy
      rw [he]
      exact hx y₀ hy₀

/-! ## Entry invariants of the three passes -/

theorem bm25Loop_entries {maxB : ℚ} (P : String × FusedCandidate → Prop) :
    ∀ (b : List BM25Result) (i : Nat) (m : List (String × FusedCandidate)),
    (∀ e ∈ m, P e) →
    (∀ r ∈ b, ∀ (j : Nat) (c : FusedCandidate), P (bm25Key r.CandidateID, c) →
        P (bm25Key r.CandidateID,
           { c with BM25Score := (r.Rank / maxB + 1 / (60 + (j : ℚ) + 1)) / 2 })) →
    (∀ r ∈ b, ∀ (j : Nat),
        P (bm25Key r.CandidateID,
           { CandidateID := r.CandidateID, Name := r.Name,
             BM25Score := (r.Rank / maxB + 1 / (60 + (j : ℚ) + 1)) / 2 })) →
    ∀ e ∈ bm25Loop maxB b i m, P e := by
  intro b
  induction b with
  | nil => intro i m hm _ _ e he; exact hm e he
  | cons r rest ih =>
      intro i m hm hstep hinit e he
      rw [bm25Loop] at he
      refine ih (i + 1) _ ?_
        (fun x hx => hstep x (List.mem_cons_of_mem _ hx))
        (fun x hx => hinit x (List.mem_cons_of_mem _ hx)) e he
      rintro ⟨k, c⟩ hkc
      rcases mem_upsertWith hkc with h | ⟨hk, c₀, hc₀, he'⟩
      · exact hm _ h
      · subst hk
        rcases hc₀ with hc₀ | hc₀
        · exact he' ▸ hstep r (List.mem_cons_self _ _) i c₀ (hm _ hc₀)
        · subst hc₀
          exact he' ▸ hinit r (List.mem_cons_self _ _) i

theorem vectorLoop_entries {maxV : ℚ} (P : String × FusedCandidate → Prop) :
    ∀ (v : List VectorSearchResult) (i : Nat) (m : List (String × FusedCandidate)),
    (∀ e ∈ m, P e) →
    (∀ r ∈ v, ∀ (j : Nat) (c : FusedCandidate), P (r.PersonID, c) →
        P (r.PersonID,
           { c with VectorScore := (r.Similarity / maxV + 1 / (60 + (j : ℚ) + 1)) / 2 })) →
    (∀ r ∈ v, ∀ (j : Nat),
        P (r.PersonID,
           { PersonID := r.PersonID,
             VectorScore := (r.Similarity / maxV + 1 / (60 + (j : ℚ) + 1)) / 2 })) →
    ∀ e ∈ vectorLoop maxV v i m, P e := by
  intro v
  induction v with
  | nil => intro i m hm _ _ e he; exact hm e he
  | cons r rest ih =>
      intro i m hm hstep hinit e he
      rw [vectorLoop] at he
      refine ih (i + 1) _ ?_
        (fun x hx => hstep x (List.mem_cons_of_mem _ hx))
        (fun x hx => hinit x (List.mem_cons_of_mem _ hx)) e he
      rintro ⟨k, c⟩ hkc
      rcases mem_upsertWith hkc with h | ⟨hk, c₀, hc₀, he'⟩
      · exact hm _ h
      · subst hk
        rcases hc₀ with hc₀ | hc₀
        · exact he' ▸ hstep r (List.mem_cons_self _ _) i c₀ (hm _ hc₀)
        · subst hc₀
          exact he' ▸ hinit r (List.mem_cons_self _ _) i

theorem graphLoop_entries {maxG : ℚ} (P : String × FusedCandidate → Prop) :
    ∀ (g : List CandidateResult) (i : Nat) (m : List (String × FusedCandidate)),
    (∀ e ∈ m, P e) →
    (∀ r ∈ g, ∀ (j : Nat) (c : FusedCandidate), P (r.PersonID, c) →
        P (r.PersonID,
           { c with GraphScore := (r.MatchScore / maxG + 1 / (60 + (j : ℚ) + 1)) / 2,
                    Name := r.Name })) →
    (∀ r ∈ g, ∀ (j : Nat),
        P (r.PersonID,
           { PersonID := r.PersonID, Name := r.Name,
             GraphScore := (r.MatchScore / maxG + 1 / (60 + (j : ℚ) + 1)) / 2 })) →
    ∀ e ∈ graphLoop maxG g i m, P e := by
  intro g
  induction g with
  | nil => intro i m hm _ _ e he; exact hm e he
  | cons r rest ih =>
      intro i m hm hstep hinit e he
      rw [graphLoop] at he
      refine ih (i + 1) _ ?_
        (fun x hx => hstep x (List.mem_cons_of_mem _ hx))
        (fun x hx => hinit x (List.mem_cons_of_mem _ hx)) e he
      rintro ⟨k, c⟩ hkc
      rcases mem_upsertWith hkc with h | ⟨hk, c₀, hc₀, he'⟩
      · exact hm _ h
      · subst hk
        rcases hc₀ with hc₀ | hc₀
        · exact he' ▸ hstep r (List.mem_cons_self _ _) i c₀ (hm _ hc₀)
        · subst hc₀
          exact he' ▸ hinit r (List.mem_cons_self _ _) i

/-! ## Relating the source max helpers to the spec maximum -/

theorem foldl_fun_congr {α : Type} (f g : ℚ → α → ℚ) (h : ∀ a x, f a x = g a x) :
    ∀ (l : List α) (a : ℚ), l.foldl f a = l.foldl g a := by
  intro l
  induction l with
  | nil => intro a; rfl
  | cons x xs ih => intro a; rw [List.foldl_cons, List.foldl_cons, h, ih]

theorem if_gt_eq_max (a x : ℚ) : (if x > a then x else a) = max a x := by
  rcases lt_or_le a x with h | h
  · rw [if_pos h, max_eq_right h.le]
  · rw [if_neg (not_lt.mpr h), max_eq_left h]

theorem specMaxRaw_cons (s : ℚ) (ss : List ℚ) : specMaxRaw (s :: ss) = ss.foldl max s := by
  rfl

theorem maxBM25Score_eq_spec {b : List BM25Result} {r : BM25Result} (hr : r ∈ b)
    (h : 0 < specMaxRaw (b.map (fun x => x.Rank))) :
    maxBM25Score b = specMaxRaw (b.map (fun x => x.Rank)) := by
  cases b with
  | nil => simp at hr
  | cons x xs =>
      have hm : xs.foldl (fun acc y => if y.Rank > acc then y.Rank else acc) x.Rank
          = specMaxRaw ((x :: xs).map (fun y => y.Rank)) := by
        rw [List.map_cons, specMaxRaw_cons, List.foldl_map]
        exact foldl_fun_congr _ _ (fun a y => if_gt_eq_max a y.Rank) xs x.Rank
      simp only [maxBM25Score]
      rw [hm, if_neg (ne_of_gt h)]

theorem maxVectorScore_eq_spec {v : List VectorSearchResult} {r : VectorSearchResult}
    (hr : r ∈ v) (h : 0 < specMaxRaw (v.map (fun x => x.Similarity))) :
    maxVectorScore v = specMaxRaw (v.map (fun x => x.Similarity)) := by
  cases v with
  | nil => simp at hr
  | cons x xs =>
      have hm : xs.foldl (fun acc y => if y.Similarity > acc then y.Similarity else acc) x.Similarity
          = specMaxRaw ((x :: xs).map (fun y => y.Similarity)) := by
        rw [List.map_cons, specMaxRaw_cons, List.foldl_map]
        exact foldl_fun_congr _ _ (fun a y => if_gt_eq_max a y.Similarity) xs x.Similarity
      simp only [maxVectorScore]
      rw [hm, if_neg (ne_of_gt h)]

theorem maxGraphScore_eq_spec {g : List CandidateResult} {r : CandidateResult}
    (hr : r ∈ g) (h : 0 < specMaxRaw (g.map (fun x => x.MatchScore))) :
    maxGraphScore g = specMaxRaw (g.map (fun x => x.MatchScore)) := by
  cases g with
  | nil => simp at hr
  | cons x xs =>
      have hm : xs.foldl (fun acc y => if y.MatchScore > acc then y.MatchScore else acc) x.MatchScore
          = specMaxRaw ((x :: xs).map (fun y => y.MatchScore)) := by
        rw [List.map_cons, specMaxRaw_cons, List.foldl_map]
        exact foldl_fun_congr _ _ (fun a y => if_gt_eq_max a y.MatchScore) xs x.MatchScore
      simp only [maxGraphScore]
      rw [hm, if_neg (ne_of_gt h)]

theorem bm25_div_congr {b : List BM25Result} {r : BM25Result} (hr : r ∈ b)
    (hm : maxCond (b.map (fun x => x.Rank))) :
    r.Rank / maxBM25Score b = r.Rank / specMaxRaw (b.map (fun x => x.Rank)) := by
  rcases hm with h | h
  · rw [maxBM25Score_eq_spec hr h]
  · have h0 : r.Rank = 0 := h _ (List.mem_map_of_mem _ hr)
    rw [h0, zero_div, zero_div]

theorem vector_div_congr {v : List VectorSearchResult} {r : VectorSearchResult} (hr : r ∈ v)
    (hm : maxCond (v.map (fun x => x.Similarity))) :
    r.Similarity / maxVectorScore v = r.Similarity / specMaxRaw (v.map (fun x => x.Similarity)) := by
  rcases hm with h | h
  · rw [maxVectorScore_eq_spec hr h]
  · have h0 : r.Similarity = 0 := h _ (List.mem_map_of_mem _ hr)
    rw [h0, zero_div, zero_div]

theorem graph_div_congr {g : List CandidateResult} {r : CandidateResult} (hr : r ∈ g)
    (hm : maxCond (g.map (fun x => x.MatchScore))) :
    r.MatchScore / maxGraphScore g = r.MatchScore / specMaxRaw (g.map (fun x => x.MatchScore)) := by
  rcases hm with h | h
  · rw [maxGraphScore_eq_spec hr h]
  · have h0 : r.MatchScore = 0 := h _ (List.mem_map_of_mem _ hr)
    rw [h0, zero_div, zero_div]

/-! ## Congruence and absence lemmas for the spec contributions -/

theorem specBM25Aux_congr {m1 m2 : ℚ} {k : String} :
    ∀ (l : List BM25Result), (∀ r ∈ l, r.Rank / m1 = r.Rank / m2) →
    ∀ (rank : Nat), specBM25Aux m1 k rank l = specBM25Aux m2 k rank l := by
  intro l
  induction l with
  | nil => intro _ rank; rfl
  | cons r rest ih =>
      intro h rank
      rw [specBM25Aux, specBM25Aux]
      by_cases hr : bm25Key r.CandidateID = k
      · rw [if_pos hr, if_pos hr, h r (List.mem_cons_self _ _)]
      · rw [if_neg hr, if_neg hr, ih (fun x hx => h x (List.mem_cons_of_mem _ hx))]

theorem specVectorAux_congr {m1 m2 : ℚ} {k : String} :
    ∀ (l : List VectorSearchResult), (∀ r ∈ l, r.Similarity / m1 = r.Similarity / m2) →
    ∀ (rank : Nat), specVectorAux m1 k rank l = specVectorAux m2 k rank l := by
  intro l
  induction l with
  | nil => intro _ rank; rfl
  | cons r rest ih =>
      intro h rank
      rw [specVectorAux, specVectorAux]
      by_cases hr : r.PersonID = k
      · rw [if_pos hr, if_pos hr, h r (List.mem_cons_self _ _)]
      · rw [if_neg hr, if_neg hr, ih (fun x hx => h x (List.mem_cons_of_mem _ hx))]

theorem specGraphAux_congr {m1 m2 : ℚ} {k : String} :
    ∀ (l : List CandidateResult), (∀ r ∈ l, r.MatchScore / m1 = r.MatchScore / m2) →
    ∀ (rank : Nat), specGraphAux m1 k rank l = specGraphAux m2 k rank l := by
  intro l
  induction l with
  | nil => intro _ rank; rfl
  | cons r rest ih =>
      intro h rank
      rw [specGraphAux, specGraphAux]
      by_cases hr : r.PersonID = k
      · rw [if_pos hr, if_pos hr, h r (List.mem_cons_self _ _)]
      · rw [if_neg hr, if_neg hr, ih (fun x hx => h x (List.mem_cons_of_mem _ hx))]

theorem specBM25Aux_absent {m : ℚ} {k : String} :
    ∀ (l : List BM25Result), (∀ r ∈ l, bm25Key r.CandidateID ≠ k) →
    ∀ (rank : Nat), specBM25Aux m k rank l = 0 := by
  intro l
  induction l with
  | nil => intro _ rank; rfl
  | cons r rest ih =>
      intro h rank
      rw [specBM25Aux, if_neg (h r (List.mem_cons_self _ _))]
      exact ih (fun x hx => h x (List.mem_cons_of_mem _ hx)) _

theorem specVectorAux_absent {m : ℚ} {k : String} :
    ∀ (l : List VectorSearchResult), (∀ r ∈ l, r.PersonID ≠ k) →
    ∀ (rank : Nat), specVectorAux m k rank l = 0 := by
  intro l
  induction l with
  | nil => intro _ rank; rfl
  | cons r rest ih =>
      intro h rank
      rw [specVectorAux, if_neg (h r (List.mem_cons_self _ _))]
      exact ih (fun x hx => h x (List.mem_cons_of_mem _ hx)) _

theorem specGraphAux_absent {m : ℚ} {k : String} :
    ∀ (l : List CandidateResult), (∀ r ∈ l, r.PersonID ≠ k) →
    ∀ (rank : Nat), specGraphAux m k rank l = 0 := by
  intro l
  induction l with
  | nil => intro _ rank; rfl
  | cons r rest ih =>
      intro h rank
      rw [specGraphAux, if_neg (h r (List.mem_cons_self _ _))]
      exact ih (fun x hx => h x (List.mem_cons_of_mem _ hx)) _

/-! ## The fused score map and decomposition of `fuseResults` -/

/-- The score map after the three passes of `fuseResults`. -/
def fusedMap (b : List BM25Result) (v : List VectorSearchResult) (g : List CandidateResult) :
    List (String × FusedCandidate) :=
  graphLoop (maxGraphScore g) g 0 (vectorLoop (maxVectorScore v) v 0
    (bm25Loop (maxBM25Score b) b 0 []))

theorem fuseResults_eq (b : List BM25Result) (v : List VectorSearchResult)
    (g : List CandidateResult) (config : HybridSearchConfig) :
    fuseResults b v g config =
      assignRanks 1 (sortByLe (fun x y => decide (y.FusionScore ≤ x.FusionScore))
        ((fusedMap b v g).map (fun p =>
          { p.2 with FusionScore := config.BM25Weight * p.2.BM25Score +
              config.VectorWeight * p.2.VectorScore + config.GraphWeight * p.2.GraphScore }))) :=
  rfl

theorem fusedMap_keys_nodup (b : List BM25Result) (v : List VectorSearchResult)
    (g : List CandidateResult) : (keysOf (fusedMap b v g)).Nodup :=
  keysOf_graphLoop_nodup _ _ _ (keysOf_vectorLoop_nodup _ _ _
    (keysOf_bm25Loop_nodup _ _ _ (by simp [keysOf])))

theorem fusedMap_BM25 (b : List BM25Result) (v : List VectorSearchResult)
    (g : List CandidateResult)
    (hbnd : (b.map (fun r => bm25Key r.CandidateID)).Nodup)
    (hmb : maxCond (b.map (fun r => r.Rank))) (k : String) :
    fieldAt (fun c => c.BM25Score) k (fusedMap b v g) = specBM25Contribution b k := by
  rw [fusedMap]
  rw [graphLoop_fieldAt_preserved (fun c => c.BM25Score) (fun c q n => rfl) (fun pid n => rfl)]
  rw [vectorLoop_fieldAt_preserved (fun c => c.BM25Score) (fun c q => rfl) (fun pid => rfl)]
  rw [bm25Loop_fieldAt _ b hbnd 0 [] k]
  by_cases h : b.any (fun r => bm25Key r.CandidateID = k) = true
  · rw [if_pos h, specBM25Contribution]
    exact specBM25Aux_congr b (fun r hr => bm25_div_congr hr hmb) 1
  · have habs : ∀ r ∈ b, bm25Key r.CandidateID ≠ k := by
      intro r hr e
      exact h (List.any_eq_true.mpr ⟨r, hr, by simp [e]⟩)
    rw [if_neg h, specBM25Contribution, specBM25Aux_absent b habs 1]
    rfl

theorem fusedMap_Vector (b : List BM25Result) (v : List VectorSearchResult)
    (g : List CandidateResult)
    (hvnd : (v.map (fun r => r.PersonID)).Nodup)
    (hmv : maxCond (v.map (fun r => r.Similarity))) (k : String) :
    fieldAt (fun c => c.VectorScore) k (fusedMap b v g) = specVectorContribution v k := by
  rw [fusedMap]
  rw [graphLoop_fieldAt_preserved (fun c => c.VectorScore) (fun c q n => rfl) (fun pid n => rfl)]
  rw [vectorLoop_fieldAt _ v hvnd 0 _ k]
  by_cases h : v.any (fun r => r.PersonID = k) = true
  · rw [if_pos h, specVectorContribution]
    exact specVectorAux_congr v (fun r hr => vector_div_congr hr hmv) 1
  · have habs : ∀ r ∈ v, r.PersonID ≠ k := by
      intro r hr e
      exact h (List.any_eq_true.mpr ⟨r, hr, by simp [e]⟩)
    rw [if_neg h, specVectorContribution, specVectorAux_absent v habs 1]
    rw [bm25Loop_fieldAt_preserved (fun c => c.VectorScore) (fun c q => rfl) (fun cid n => rfl)]
    rfl

theorem fusedMap_Graph (b : List BM25Result) (v : List VectorSearchResult)
    (g : List CandidateResult)
    (hgnd : (g.map (fun r => r.PersonID)).Nodup)
    (hmg : maxCond (g.map (fun r => r.MatchScore))) (k : String) :
    fieldAt (fun c => c.GraphScore) k (fusedMap b v g) = specGraphContribution g k := by
  rw [fusedMap]
  rw [graphLoop_fieldAt _ g hgnd 0 _ k]
  by_cases h : g.any (fun r => r.PersonID = k) = true
  · rw [if_pos h, specGraphContribution]
    exact specGraphAux_congr g (fun r hr => graph_div_congr hr hmg) 1
  · have habs : ∀ r ∈ g, r.PersonID ≠ k := by
      intro r hr e
      exact h (List.any_eq_true.mpr ⟨r, hr, by simp [e]⟩)
    rw [if_neg h, specGraphContribution, specGraphAux_absent g habs 1]
    rw [vectorLoop_fieldAt_preserved (fun c => c.GraphScore) (fun c q => rfl) (fun pid => rfl)]
    rw [bm25Loop_fieldAt_preserved (fun c => c.GraphScore) (fun c q => rfl) (fun cid n => rfl)]
    rfl

/-- Provenance invariant of the fused score map: every entry comes from a
BM25 row (empty person id, key of the form `cand_N`) or from a vector or
graph row (key equal to the person id, zero candidate id). -/
theorem fusedMap_entries (b : List BM25Result) (v : List VectorSearchResult)
    (g : List CandidateResult)
    (hvne : ∀ r ∈ v, r.PersonID ≠ "") (hgne : ∀ r ∈ g, r.PersonID ≠ "") :
    ∀ e ∈ fusedMap b v g,
    (e.2.PersonID = "" ∧ e.1 = bm25Key e.2.CandidateID ∧
        ∃ x ∈ b, bm25Key x.CandidateID = e.1 ∧ e.2.CandidateID = x.CandidateID)
    ∨ (e.2.PersonID ≠ "" ∧ e.1 = e.2.PersonID ∧ e.2.CandidateID = 0 ∧
        ((∃ r ∈ v, r.PersonID = e.1) ∨ (∃ r ∈ g, r.PersonID = e.1))) := by
  rw [fusedMap]
  refine graphLoop_entries
    (fun e =>
      (e.2.PersonID = "" ∧ e.1 = bm25Key e.2.CandidateID ∧
          ∃ x ∈ b, bm25Key x.CandidateID = e.1 ∧ e.2.CandidateID = x.CandidateID)
      ∨ (e.2.PersonID ≠ "" ∧ e.1 = e.2.PersonID ∧ e.2.CandidateID = 0 ∧
          ((∃ r ∈ v, r.PersonID = e.1) ∨ (∃ r ∈ g, r.PersonID = e.1))))
    g 0 _ ?_ ?_ ?_
  · refine vectorLoop_entries _ v 0 _ ?_ ?_ ?_
    · refine bm25Loop_entries _ b 0 [] ?_ ?_ ?_
      · intro e he
        simp at he
      · rintro r hr j c (⟨h1, h2, h3⟩ | ⟨h1, h2, h3⟩)
        · exact Or.inl ⟨h1, h2, h3⟩
        · exact Or.inr ⟨h1, h2, h3⟩
      · rintro r hr j
        exact Or.inl ⟨rfl, rfl, r, hr, rfl, rfl⟩
    · rintro r hr j c (⟨h1, h2, h3⟩ | ⟨h1, h2, h3⟩)
      · exact Or.inl ⟨h1, h2, h3⟩
      · exact Or.inr ⟨h1, h2, h3⟩
    · rintro r hr j
      exact Or.inr ⟨hvne r hr, rfl, rfl, Or.inl ⟨r, hr, rfl⟩⟩
  · rintro r hr j c (⟨h1, h2, h3⟩ | ⟨h1, h2, h3⟩)
    · exact Or.inl ⟨h1, h2, h3⟩
    · exact Or.inr ⟨h1, h2, h3⟩
  · rintro r hr j
    exact Or.inr ⟨hgne r hr, rfl, rfl, Or.inr ⟨r, hr, rfl⟩⟩

theorem mem_keysOf_fusedMap (b : List BM25Result) (v : List VectorSearchResult)
    (g : List CandidateResult) (k : String) :
    k ∈ keysOf (fusedMap b v g) ↔
      (∃ r ∈ b, bm25Key r.CandidateID = k) ∨ (∃ r ∈ v, r.PersonID = k) ∨
        (∃ r ∈ g, r.PersonID = k) := by
  rw [fusedMap, mem_keysOf_graphLoop, mem_keysOf_vectorLoop, mem_keysOf_bm25Loop]
  constructor
  · rintro (((h | h) | h) | h)
    · simp [keysOf] at h
    · exact Or.inl h
    · exact Or.inr (Or.inl h)
    · exact Or.inr (Or.inr h)
  · rintro (h | h | h)
    · exact Or.inl (Or.inl (Or.inr h))
    · exact Or.inl (Or.inr h)
    · exact Or.inr h

theorem entry_of_key {k : String} {m : List (String × FusedCandidate)}
    (h : k ∈ keysOf m) : ∃ cm, (k, cm) ∈ m := by
  obtain ⟨cm, hcm⟩ := Option.isSome_iff_exists.mp (lookupKey_isSome_iff.mpr h)
  exact ⟨cm, mem_of_lookupKey_eq_some hcm⟩

/-- Each output candidate of `fuseResults` is an entry of the fused map,
with the fusion score recomputed and only the rank rewritten. -/
theorem mem_fuseResults_decomp (b : List BM25Result) (v : List VectorSearchResult)
    (g : List CandidateResult) (config : HybridSearchConfig) :
    ∀ c ∈ fuseResults b v g config, ∃ k cm, (k, cm) ∈ fusedMap b v g ∧
      c.PersonID = cm.PersonID ∧ c.CandidateID = cm.CandidateID ∧
      c.BM25Score = cm.BM25Score ∧ c.VectorScore = cm.VectorScore ∧
      c.GraphScore = cm.GraphScore ∧
      c.FusionScore = config.BM25Weight * cm.BM25Score + config.VectorWeight * cm.VectorScore +
        config.GraphWeight * cm.GraphScore := by
  intro c hc
  rw [fuseResults_eq] at hc
  obtain ⟨c₁, hc₁, he₁⟩ := mem_assignRanks _ _ hc
  have hc₂ := (sortByLe_perm _ _).mem_iff.mp hc₁
  obtain ⟨p, hp, he₂⟩ := List.mem_map.mp hc₂
  obtain ⟨k, cm⟩ := p
  subst he₂
  exact ⟨k, cm, hp, by rw [he₁], by rw [he₁], by rw [he₁], by rw [he₁], by rw [he₁],
    by rw [he₁]⟩

/-- Each entry of the fused map reaches the output of `fuseResults`. -/
theorem exists_fuseResults_of_mem (b : List BM25Result) (v : List VectorSearchResult)
    (g : List CandidateResult) (config : HybridSearchConfig) {k : String} {cm : FusedCandidate}
    (h : (k, cm) ∈ fusedMap b v g) :
    ∃ c ∈ fuseResults b v g config, c.PersonID = cm.PersonID ∧ c.CandidateID = cm.CandidateID := by
  rw [fuseResults_eq]
  have h1 : ({ cm with FusionScore := config.BM25Weight * cm.BM25Score +
      config.VectorWeight * cm.VectorScore + config.GraphWeight * cm.GraphScore }
      : FusedCandidate) ∈ (fusedMap b v g).map (fun p =>
        { p.2 with FusionScore := config.BM25Weight * p.2.BM25Score +
            config.VectorWeight * p.2.VectorScore + config.GraphWeight * p.2.GraphScore }) :=
    List.mem_map_of_mem _ h
  have h2 := (sortByLe_perm (fun x y => decide (y.FusionScore ≤ x.FusionScore)) _).mem_iff.mpr h1
  obtain ⟨n, hn⟩ := assignRanks_exists_mem 1 _ h2
  exact ⟨_, hn, rfl, rfl⟩

/-- Fields of a fused-map entry, via the per-axis characterisations. -/
theorem fields_of_mem_fusedMap {b : List BM25Result} {v : List VectorSearchResult}
    {g : List CandidateResult}
    (hbnd : (b.map (fun r => bm25Key r.CandidateID)).Nodup)
    (hvnd : (v.map (fun r => r.PersonID)).Nodup)
    (hgnd : (g.map (fun r => r.PersonID)).Nodup)
    (hmb : maxCond (b.map (fun r => r.Rank)))
    (hmv : maxCond (v.map (fun r => r.Similarity)))
    (hmg : maxCond (g.map (fun r => r.MatchScore)))
    {k : String} {cm : FusedCandidate} (h : (k, cm) ∈ fusedMap b v g) :
    cm.BM25Score = specBM25Contribution b k ∧ cm.VectorScore = specVectorContribution v k ∧
      cm.GraphScore = specGraphContribution g k := by
  have hlk := lookupKey_eq_some_of_mem (fusedMap_keys_nodup b v g) h
  refine ⟨?_, ?_, ?_⟩
  · have h1 := fusedMap_BM25 b v g hbnd hmb k
    rw [fieldAt, hlk] at h1
    simpa using h1
  · have h1 := fusedMap_Vector b v g hvnd hmv k
    rw [fieldAt, hlk] at h1
    simpa using h1
  · have h1 := fusedMap_Graph b v g hgnd hmg k
    rw [fieldAt, hlk] at h1
    simpa using h1

/-- C1: for every ranked retriever list and every person present in it at
1-based rank `r` with raw score `s`, `fuseResults` assigns that person the
per-list contribution `(s / max_raw(L) + 1/(60+r)) / 2`; a person absent
from a list contributes 0 on that list's axis, and the fusion score is the
weighted sum of the three contributions.  Rows of the keyword list are
identified by their fused-map key `cand_<CandidateID>` and carry an empty
person id.  Hypotheses: each list names each key once, vector and graph
person ids are nonempty and distinct from the keyword keys, and on each
list the spec's division `s / max_raw(L)` is well defined (`maxCond`). -/
theorem c1_fusion_formula
    (b : List BM25Result) (v : List VectorSearchResult) (g : List CandidateResult)
    (config : HybridSearchConfig)
    (hbnd : (b.map (fun r => bm25Key r.CandidateID)).Nodup)
    (hvnd : (v.map (fun r => r.PersonID)).Nodup)
    (hgnd : (g.map (fun r => r.PersonID)).Nodup)
    (hvne : ∀ r ∈ v, r.PersonID ≠ "")
    (hgne : ∀ r ∈ g, r.PersonID ≠ "")
    (hvb : ∀ r ∈ v, ∀ x ∈ b, r.PersonID ≠ bm25Key x.CandidateID)
    (hgb : ∀ r ∈ g, ∀ x ∈ b, r.PersonID ≠ bm25Key x.CandidateID)
    (hmb : maxCond (b.map (fun r => r.Rank)))
    (hmv : maxCond (v.map (fun r => r.Similarity)))
    (hmg : maxCond (g.map (fun r => r.MatchScore))) :
    (∀ c ∈ fuseResults b v g config,
        c.FusionScore = config.BM25Weight * c.BM25Score + config.VectorWeight * c.VectorScore +
          config.GraphWeight * c.GraphScore
      ∧ (c.PersonID ≠ "" → c.BM25Score = 0
          ∧ c.VectorScore = specVectorContribution v c.PersonID
          ∧ c.GraphScore = specGraphContribution g c.PersonID)
      ∧ (c.PersonID = "" → c.VectorScore = 0 ∧ c.GraphScore = 0
          ∧ c.BM25Score = specBM25Contribution b (bm25Key c.CandidateID)))
    ∧ (∀ r ∈ v, ∃ c ∈ fuseResults b v g config, c.PersonID = r.PersonID)
    ∧ (∀ r ∈ g, ∃ c ∈ fuseResults b v g config, c.PersonID = r.PersonID)
    ∧ (∀ r ∈ b, ∃ c ∈ fuseResults b v g config,
        c.PersonID = "" ∧ c.CandidateID = r.CandidateID) := by
  refine ⟨?_, ?_, ?_, ?_⟩
  · intro c hc
    obtain ⟨k, cm, hkm, hpid, hcid, hb25, hvec, hgr, hfus⟩ :=
      mem_fuseResults_decomp b v g config c hc
    obtain ⟨hsb, hsv, hsg⟩ := fields_of_mem_fusedMap hbnd hvnd hgnd hmb hmv hmg hkm
    have hinv := fusedMap_entries b v g hvne hgne (k, cm) hkm
    dsimp only at hinv
    refine ⟨?_, ?_, ?_⟩
    · rw [hfus, hb25, hvec, hgr]
    · intro hne
      rcases hinv with ⟨h1, h2, x, hx, hxk, hxid⟩ | ⟨h1, h2, h3, h4⟩
      · exact absurd (hpid.trans h1) hne
      · have hk : k = c.PersonID := by rw [h2, ← hpid]
        refine ⟨?_, ?_, ?_⟩
        · rw [hb25, hsb, specBM25Contribution]
          apply specBM25Aux_absent
          intro r hr e
          rcases h4 with ⟨rv, hrv, he⟩ | ⟨rg, hrg, he⟩
          · exact hvb rv hrv r hr (he.trans e.symm)
          · exact hgb rg hrg r hr (he.trans e.symm)
        · rw [hvec, hsv, hk]
        · rw [hgr, hsg, hk]
    · intro heq
      rcases hinv with ⟨h1, h2, x, hx, hxk, hxid⟩ | ⟨h1, h2, h3, h4⟩
      · refine ⟨?_, ?_, ?_⟩
        · rw [hvec, hsv, specVectorContribution]
          apply specVectorAux_absent
          intro rv hrv e
          exact hvb rv hrv x hx (e.trans hxk.symm)
        · rw [hgr, hsg, specGraphContribution]
          apply specGraphAux_absent
          intro rg hrg e
          exact hgb rg hrg x hx (e.trans hxk.symm)
        · rw [hb25, hsb, hcid, ← h2]
      · exact absurd (hpid.symm.trans heq) h1
  · intro r hr
    have hkmem : r.PersonID ∈ keysOf (fusedMap b v g) :=
      (mem_keysOf_fusedMap b v g _).mpr (Or.inr (Or.inl ⟨r, hr, rfl⟩))
    obtain ⟨cm, hkm⟩ := entry_of_key hkmem
    obtain ⟨c, hc, hcp, hcc⟩ := exists_fuseResults_of_mem b v g config hkm
    refine ⟨c, hc, ?_⟩
    have hinv := fusedMap_entries b v g hvne hgne _ hkm
    dsimp only at hinv
    rcases hinv with ⟨h1, h2, x, hx, hxk, hxid⟩ | ⟨h1, h2, h3, h4⟩
    · exact absurd hxk.symm (hvb r hr x hx)
    · rw [hcp, ← h2]
  · intro r hr
    have hkmem : r.PersonID ∈ keysOf (fusedMap b v g) :=
      (mem_keysOf_fusedMap b v g _).mpr (Or.inr (Or.inr ⟨r, hr, rfl⟩))
    obtain ⟨cm, hkm⟩ := entry_of_key hkmem
    obtain ⟨c, hc, hcp, hcc⟩ := exists_fuseResults_of_mem b v g config hkm
    refine ⟨c, hc, ?_⟩
    have hinv := fusedMap_entries b v g hvne hgne _ hkm
    dsimp only at hinv
    rcases hinv with ⟨h1, h2, x, hx, hxk, hxid⟩ | ⟨h1, h2, h3, h4⟩
    · exact absurd hxk.symm (hgb r hr x hx)
    · rw [hcp, ← h2]
  · intro r hr
    have hkmem : bm25Key r.CandidateID ∈ keysOf (fusedMap b v g) :=
      (mem_keysOf_fusedMap b v g _).mpr (Or.inl ⟨r, hr, rfl⟩)
    obtain ⟨cm, hkm⟩ := entry_of_key hkmem
    obtain ⟨c, hc, hcp, hcc⟩ := exists_fuseResults_of_mem b v g config hkm
    have hinv := fusedMap_entries b v g hvne hgne _ hkm
    dsimp only at hinv
    rcases hinv with ⟨h1, h2, x, hx, hxk, hxid⟩ | ⟨h1, h2, h3, h4⟩
    · have hxr : x = r := List.inj_on_of_nodup_map hbnd hx hr hxk
      refine ⟨c, hc, hcp.trans h1, ?_⟩
      rw [hcc, hxid, hxr]
    · rcases h4 with ⟨rv, hrv, he⟩ | ⟨rg, hrg, he⟩
      · exact absurd he (hvb rv hrv r hr)
      · exact absurd he (hgb rg hrg r hr)

/-- Witness for C1: a keyword row with candidate id 1 yields a fused
candidate with empty person id and candidate id 1, on a concrete input
satisfying all hypotheses. -/
theorem c1_fusion_formula_witness :
    ∃ c ∈ fuseResults [⟨1, "Bob", 2⟩] [⟨0, "person_a", 1⟩]
        [⟨"person_b", "Carol", "", none, [], [], [], 1, []⟩] DefaultHybridConfig,
      c.PersonID = "" ∧ c.CandidateID = 1 :=
  (c1_fusion_formula [⟨1, "Bob", 2⟩] [⟨0, "person_a", 1⟩]
    [⟨"person_b", "Carol", "", none, [], [], [], 1, []⟩] DefaultHybridConfig
    (by simp)
    (by simp)
    (by simp)
    (by simp)
    (by simp)
    (by intro r hr x hx; simp at hr hx; rw [hr, hx]; simp [bm25Key]; decide)
    (by intro r hr x hx; simp at hr hx; rw [hr, hx]; simp [bm25Key]; decide)
    (Or.inl (by simp [specMaxRaw_cons]))
    (Or.inl (by simp [specMaxRaw_cons]))
    (Or.inl (by simp [specMaxRaw_cons]))).2.2.2
    ⟨1, "Bob", 2⟩ (List.mem_cons_self _ _)

/-- C6 amended: the output of `fuseResults` is ordered by descending
fusion score.  (The relative order of candidates with equal fusion scores
is not specified by the source: it depends on Go map iteration order and
an unstable sort; it is not the ascending person-id order.) -/
theorem c6_sorted_descending (b : List BM25Result) (v : List VectorSearchResult)
    (g : List CandidateResult) (config : HybridSearchConfig) :
    (fuseResults b v g config).Pairwise (fun x y => y.FusionScore ≤ x.FusionScore) := by
  rw [fuseResults_eq]
  refine assignRanks_pairwise (fun x y => y ≤ x) 1 _ ?_
  have h := sortByLe_pairwise (fun x y => decide (y.FusionScore ≤ x.FusionScore))
    (fun a b c h1 h2 => decide_eq_true
      (le_trans (of_decide_eq_true h2) (of_decide_eq_true h1)))
    (fun a b => by
      rcases le_total b.FusionScore a.FusionScore with h | h
      · exact Or.inl (decide_eq_true h)
      · exact Or.inr (decide_eq_true h))
    ((fusedMap b v g).map (fun p =>
      { p.2 with FusionScore := config.BM25Weight * p.2.BM25Score +
          config.VectorWeight * p.2.VectorScore + config.GraphWeight * p.2.GraphScore }))
  exact h.imp (fun hab => of_decide_eq_true hab)

/-- Counterexample for C6: two candidates with equal fusion scores are
not ordered by ascending person-id — the vector-list person `person_b`
precedes the graph-list person `person_a` although their fusion scores
are equal and `person_a` is the smaller id. -/
theorem c6_tiebreak_counterexample :
    ((fuseResults [] [⟨0, "person_b", 1⟩] [⟨"person_a", "Alice", "", none, [], [], [], 1, []⟩]
        { BM25Weight := 2/10, VectorWeight := 4/10, GraphWeight := 4/10, TopK := 100,
          FinalTopN := 0 }).map (fun c => (c.PersonID, c.FusionScore))
      = [("person_b", 62/305), ("person_a", 62/305)])
    ∧ "person_a" < "person_b" := by
  constructor
  · simp [fuseResults, fusedMap, bm25Loop, vectorLoop, graphLoop, maxBM25Score,
      maxVectorScore, maxGraphScore, upsertWith, sortByLe, insSorted, assignRanks]
    norm_num
  · rw [String.lt_iff_toList_lt]
    decide

/-! ## Hybrid-search HTTP handler: request validation (src: `part_006`)

The handler decodes the request, rejects an empty query, builds the
effective configuration from the defaults — a weight field is taken from
the request only when it is strictly positive — and rejects the request
with HTTP 400 when the effective weights sum outside `[0.9, 1.1]`. -/

/-- Request body of `POST /api/search/hybrid` (`HybridSearchRequest`). -/
structure HybridSearchRequest where
  Query : String
  BM25Weight : ℚ
  VectorWeight : ℚ
  GraphWeight : ℚ
  TopK : Int
  FinalTopN : Int
  deriving DecidableEq, Repr

/-- Outcome of the validation prefix of `HybridSearchHandler`: either a
400 response or the effective configuration the search proceeds with. -/
inductive HandlerOutcome where
  | badRequest (msg : String)
  | proceeds (config : HybridSearchConfig)
  deriving DecidableEq, Repr

/-- Effective configuration built from the defaults; each request field
overrides its default only when strictly positive. -/
def buildConfig (req : HybridSearchRequest) : HybridSearchConfig :=
  let c0 := DefaultHybridConfig
  let c1 := if req.BM25Weight > 0 then { c0 with BM25Weight := req.BM25Weight } else c0
  let c2 := if req.VectorWeight > 0 then { c1 with VectorWeight := req.VectorWeight } else c1
  let c3 := if req.GraphWeight > 0 then { c2 with GraphWeight := req.GraphWeight } else c2
  let c4 := if req.TopK > 0 then { c3 with TopK := req.TopK } else c3
  if req.FinalTopN > 0 then { c4 with FinalTopN := req.FinalTopN } else c4

/-- Validation prefix of `HybridSearchHandler` (empty-query check and
weight-sum check), up to the point where the search engine is invoked. -/
def HybridSearchHandlerValidate (req : HybridSearchRequest) : HandlerOutcome :=
  if req.Query = "" then .badRequest "Query cannot be empty"
  else
    let config := buildConfig req
    let totalWeight := config.BM25Weight + config.VectorWeight + config.GraphWeight
    if totalWeight < 9/10 ∨ totalWeight > 11/10 then .badRequest "Weights must sum to 1.0"
    else .proceeds config

/-- Request with weight triple `(0.3, 0.4, 0.3)`. -/
def reqBalancedWeights : HybridSearchRequest :=
  { Query := "x", BM25Weight := 3/10, VectorWeight := 4/10, GraphWeight := 3/10,
    TopK := 0, FinalTopN := 0 }

/-- Request with weight triple `(0, 0.6, 0.4)`. -/
def reqZeroBM25Weight : HybridSearchRequest :=
  { Query := "x", BM25Weight := 0, VectorWeight := 6/10, GraphWeight := 4/10,
    TopK := 0, FinalTopN := 0 }

/-- Counterexample for C7: the weight triple `(0, 0.6, 0.4)` is NOT
accepted — the zero bm25 weight is replaced by its default 0.3, the
effective sum is 1.3, and the handler answers 400. -/
theorem c7_zero_weight_counterexample :
    HybridSearchHandlerValidate reqZeroBM25Weight = .badRequest "Weights must sum to 1.0" := by
  norm_num [HybridSearchHandlerValidate, buildConfig, DefaultHybridConfig, reqZeroBM25Weight]
  intro h
  exact absurd h (by decide)

/-- C7 amended: `(0.3, 0.4, 0.3)` is accepted, while `(0, 0.6, 0.4)` is
rejected with 400 because the zero weight falls back to its default 0.3,
making the effective sum 1.3. -/
theorem c7_weight_validation :
    HybridSearchHandlerValidate reqBalancedWeights =
      .proceeds { BM25Weight := 3/10, VectorWeight := 4/10, GraphWeight := 3/10,
                  TopK := 100, FinalTopN := 0 }
    ∧ HybridSearchHandlerValidate reqZeroBM25Weight = .badRequest "Weights must sum to 1.0"
    ∧ (buildConfig reqZeroBM25Weight).BM25Weight + (buildConfig reqZeroBM25Weight).VectorWeight +
        (buildConfig reqZeroBM25Weight).GraphWeight = 13/10 := by
  refine ⟨?_, ?_, ?_⟩
  · norm_num [HybridSearchHandlerValidate, buildConfig, DefaultHybridConfig, reqBalancedWeights]
    intro h
    exact absurd h (by decide)
  · norm_num [HybridSearchHandlerValidate, buildConfig, DefaultHybridConfig, reqZeroBM25Weight]
    intro h
    exact absurd h (by decide)
  · norm_num [buildConfig, DefaultHybridConfig, reqZeroBM25Weight]

/-! ## Graph querier: criteria and match scoring (src: `querier.go`) -/

/-- Structured search criteria extracted from the query by the LLM
(`SearchCriteria` in the source; the legacy fields are omitted).
Defaults mirror Go zero values. -/
structure SearchCriteria where
  Skills : List String := []
  Companies : List String := []
  Positions : List String := []
  Seniority : String := ""
  Education : List String := []
  MinExperience : Option Int := none
  MaxExperience : Option Int := none
  Location : List String := []
  deriving DecidableEq, Repr

/-- Match scoring of the graph querier (`calculateMatch` in the source):
deprecated in the source, which always returns score 0 with the single
reason string, delegating all scoring to the LLM. -/
def calculateMatch (result : CandidateResult) (criteria : SearchCriteria) :
    ℚ × List String :=
  (0, ["Scored by LLM"])

/-- Row-processing of `QueryGraph`: the SQL result rows (already carrying
their parsed properties and enriched relations) are the input list; each
gets its match score from `calculateMatch`, and the list is sorted by
descending match score (the source's selection-sort loop, modelled by the
comparison sort `sortByLe`). -/
def QueryGraphProcess (rows : List CandidateResult) (criteria : SearchCriteria) :
    List CandidateResult :=
  let results := rows.map (fun r =>
    { r with MatchScore := (calculateMatch r criteria).1,
             MatchReasons := (calculateMatch r criteria).2 })
  sortByLe (fun x y => decide (y.MatchScore ≤ x.MatchScore)) results

/-- Spec-side count of matched criteria, written from the spec's words
for comparison with `calculateMatch`: each supplied skill must appear as
a skill of the candidate, each company among its companies, each
education among its education entries, seniority as an exact attribute
match, and the experience bounds as range checks on the candidate's
total experience. -/
def specMatchedCriteriaCount (result : CandidateResult) (criteria : SearchCriteria) : Nat :=
  criteria.Skills.countP (fun s => result.Skills.any (fun sk => sk.Name = s))
  + criteria.Companies.countP (fun cn => result.Companies.any (fun c => c.Name = cn))
  + criteria.Education.countP (fun e => result.Education.any (fun ed => ed.Institution = e))
  + (if criteria.Seniority ≠ "" ∧ result.Seniority = criteria.Seniority then 1 else 0)
  + (match criteria.MinExperience, result.TotalExperience with
     | some n, some t => if 0 < n ∧ n ≤ t then 1 else 0
     | _, _ => 0)
  + (match criteria.MaxExperience, result.TotalExperience with
     | some n, some t => if 0 < n ∧ t ≤ n then 1 else 0
     | _, _ => 0)

/-- Counterexample for C2: a candidate matching one supplied criterion
(the skill "Go") receives raw score 0 from `calculateMatch`, not 1. -/
theorem c2_counterexample :
    (calculateMatch ⟨"person_1", "Bob", "", none, [⟨"Go", "Expert"⟩], [], [], 0, []⟩
        { Skills := ["Go"] }).1 ≠
      (specMatchedCriteriaCount ⟨"person_1", "Bob", "", none, [⟨"Go", "Expert"⟩], [], [], 0, []⟩
        { Skills := ["Go"] } : ℚ)
    ∧ specMatchedCriteriaCount ⟨"person_1", "Bob", "", none, [⟨"Go", "Expert"⟩], [], [], 0, []⟩
        { Skills := ["Go"] } = 1 := by
  constructor
  · norm_num [calculateMatch, specMatchedCriteriaCount]
  · norm_num [specMatchedCriteriaCount]

/-- C2 amended: every candidate returned by the graph querier carries raw
score 0 and the reason "Scored by LLM" — scoring is delegated entirely to
the LLM scorer. -/
theorem c2_score_always_zero (rows : List CandidateResult) (criteria : SearchCriteria) :
    ∀ r ∈ QueryGraphProcess rows criteria,
      r.MatchScore = 0 ∧ r.MatchReasons = ["Scored by LLM"] := by
  intro r hr
  rw [QueryGraphProcess] at hr
  have hmem := (sortByLe_perm _ _).mem_iff.mp hr
  obtain ⟨r₀, h₀, he⟩ := List.mem_map.mp hmem
  subst he
  exact ⟨rfl, rfl⟩

/-- Witness for C2's amended theorem at a concrete row and criteria. -/
theorem c2_score_always_zero_witness :
    (⟨"person_1", "Bob", "", none, [⟨"Go", "Expert"⟩], [], [], 0, ["Scored by LLM"]⟩
        : CandidateResult).MatchScore = 0 ∧
    (⟨"person_1", "Bob", "", none, [⟨"Go", "Expert"⟩], [], [], 0, ["Scored by LLM"]⟩
        : CandidateResult).MatchReasons = ["Scored by LLM"] :=
  c2_score_always_zero [⟨"person_1", "Bob", "", none, [⟨"Go", "Expert"⟩], [], [], 5, []⟩]
    { Skills := ["Go"] } _
    (by simp [QueryGraphProcess, sortByLe, insSorted, calculateMatch])

/-! ## Community classifier (src: `adapter.go` / community table)

`DefaultCommunities` is a Go map literal; it is modelled as an
association list in declaration order.  Go map iteration order is
implementation-defined, and the source's tie-break for the primary
community depends on it; the model fixes the declaration order as the
iteration order.  `strings.ToLower` is modelled by mapping
`Char.toLower` over the characters (the key skills and inputs of
interest are ASCII), and `strings.Contains` by a substring test. -/

/-- A community matching pattern (`CommunityPattern` in the source). -/
structure CommunityPattern where
  Name : String
  KeySkills : List String
  deriving DecidableEq, Repr

/-- The hand-curated Level-1 community table (`DefaultCommunities`). -/
def DefaultCommunities : List (String × CommunityPattern) :=
  [("backend", ⟨"Backend Developers",
      ["Java", "Python", "Go", "Node.js", "PHP", "Ruby", "C#", ".NET", "Spring", "Django",
       "FastAPI", "Express"]⟩),
   ("frontend", ⟨"Frontend Developers",
      ["React", "Vue", "Angular", "JavaScript", "TypeScript", "HTML", "CSS", "Next.js",
       "Svelte"]⟩),
   ("mobile", ⟨"Mobile Developers",
      ["Swift", "Kotlin", "Flutter", "React Native", "iOS", "Android", "Xamarin"]⟩),
   ("devops", ⟨"DevOps Engineers",
      ["Docker", "Kubernetes", "AWS", "Azure", "GCP", "Jenkins", "Terraform", "Ansible",
       "CI/CD"]⟩),
   ("data", ⟨"Data Engineers",
      ["SQL", "PostgreSQL", "MySQL", "MongoDB", "Redis", "Cassandra", "Spark", "Kafka",
       "Elasticsearch"]⟩),
   ("ml-ai", ⟨"ML/AI Engineers",
      ["TensorFlow", "PyTorch", "Scikit-learn", "Machine Learning", "Deep Learning", "AI",
       "NLP", "Computer Vision"]⟩),
   ("qa-test", ⟨"QA/Test Engineers",
      ["QA", "Testing", "Test Automation", "Selenium", "JUnit", "Jest", "Cypress", "Postman",
       "Quality Assurance", "Manual Testing", "Test Cases"]⟩),
   ("analyst", ⟨"Business/Data Analysts",
      ["Business Analysis", "Data Analysis", "Analytics", "Tableau", "Power BI", "Excel",
       "Requirements Analysis", "Requirement Analysis", "BA", "Product Analysis",
       "Stakeholder", "Agile", "Jira"]⟩)]

/-- Lower-casing, as `strings.ToLower` on ASCII content. -/
def strLower (s : String) : String := ⟨s.data.map Char.toLower⟩

/-- Substring containment: `strings.Contains s sub`. -/
def strContainsSub (s sub : String) : Bool :=
  s.data.tails.any (fun t => sub.data.isPrefixOf t)

/-- Case-insensitive bidirectional substring match of one (lower-cased)
skill against any key skill of a community, with the source's `break`
rendered as `any`. -/
def skillMatchesCommunity (skillLower : String) (pattern : CommunityPattern) : Bool :=
  pattern.KeySkills.any (fun keySkill =>
    strContainsSub skillLower (strLower keySkill) ||
      strContainsSub (strLower keySkill) skillLower)

/-- Raw score of a community: the number of input skills matching it
(the source increments once per skill thanks to the `break`). -/
def communityRawScore (skills : List SkillNode) (pattern : CommunityPattern) : Nat :=
  skills.countP (fun sk => skillMatchesCommunity (strLower sk.Name) pattern)

/-- The community classifier (`FindCommunities` in the source): raw
scores per community, normalisation by the maximum, primary community
(last max-scoring community in iteration order), and the communities
whose normalised score reaches the threshold. -/
def FindCommunities (skills : List SkillNode) (threshold : ℚ) :
    String × List String × List (String × ℚ) :=
  let raw : List (String × Nat) :=
    DefaultCommunities.map (fun p => (p.1, communityRawScore skills p.2))
  let maxScore : Nat := (raw.map (fun q => q.2)).foldl max 0
  if maxScore = 0 then ("general", ["general"], [("general", 1)])
  else
    let entries := raw.filter (fun q => q.2 ≠ 0)
    let normalizedScores := entries.map (fun q => (q.1, (q.2 : ℚ) / (maxScore : ℚ)))
    let primary :=
      (((entries.filter (fun q => q.2 = maxScore)).getLast?).map (fun q => q.1)).getD ""
    let communities :=
      (entries.filter (fun q => (q.2 : ℚ) / (maxScore : ℚ) ≥ threshold)).map (fun q => q.1)
    if primary = "" then ("general", ["general"], [("general", 1)])
    else (primary, communities, normalizedScores)

theorem foldl_max_le_init : ∀ (l : List Nat) (a : Nat), a ≤ l.foldl max a := by
  intro l
  induction l with
  | nil => intro a; exact le_refl a
  | cons b bs ih => intro a; exact le_trans (le_max_left a b) (ih (max a b))

theorem le_foldl_max {x : Nat} : ∀ (l : List Nat) (a : Nat), x ∈ l → x ≤ l.foldl max a := by
  intro l
  induction l with
  | nil => intro a h; simp at h
  | cons b bs ih =>
      intro a h
      rcases List.mem_cons.mp h with h | h
      · subst h
        exact le_trans (le_max_right a x) (foldl_max_le_init bs (max a x))
      · exact ih (max a b) h

theorem foldl_max_attained : ∀ (l : List Nat) (a : Nat), l.foldl max a = a ∨ l.foldl max a ∈ l := by
  intro l
  induction l with
  | nil => intro a; exact Or.inl rfl
  | cons b bs ih =>
      intro a
      rcases ih (max a b) with h | h
      · rcases max_choice a b with hm | hm
        · exact Or.inl (by rw [List.foldl_cons, h, hm])
        · exact Or.inr (by rw [List.foldl_cons, h, hm]; exact List.mem_cons_self _ _)
      · exact Or.inr (List.mem_cons_of_mem _ h)

/-- C8: the community classifier is a pure function, invariant under
permutation of the input skill list (hence idempotent and
order-independent in primary, communities and scores), and when at least
one input skill matches some community the normalised scores sum to at
least 1 (the maximal community contributes exactly 1 and all scores are
nonnegative). -/
theorem c8_classifier_perm_invariant_sum (skills skills2 : List SkillNode) (threshold : ℚ)
    (hperm : skills.Perm skills2) :
    FindCommunities skills threshold = FindCommunities skills2 threshold
    ∧ ((∃ p ∈ DefaultCommunities, ∃ sk ∈ skills,
          skillMatchesCommunity (strLower sk.Name) p.2 = true) →
        1 ≤ ((FindCommunities skills threshold).2.2.map (fun q => q.2)).sum) := by
  constructor
  · have hfun : (fun p : String × CommunityPattern =>
        (p.1, communityRawScore skills p.2)) =
        (fun p => (p.1, communityRawScore skills2 p.2)) := by
      funext p
      rw [communityRawScore, communityRawScore, hperm.countP_eq]
    rw [FindCommunities, FindCommunities, hfun]
  · rintro ⟨p, hp, sk, hsk, hmatch⟩
    have hscore : 0 < communityRawScore skills p.2 :=
      List.countP_pos.mpr ⟨sk, hsk, hmatch⟩
    have hqmem : (p.1, communityRawScore skills p.2) ∈
        DefaultCommunities.map (fun q => (q.1, communityRawScore skills q.2)) :=
      List.mem_map_of_mem _ hp
    have hvmem : communityRawScore skills p.2 ∈
        (DefaultCommunities.map (fun q => (q.1, communityRawScore skills q.2))).map
          (fun q => q.2) := by
      have := List.mem_map_of_mem (fun q : String × Nat => q.2) hqmem
      simpa using this
    set raw := DefaultCommunities.map (fun q => (q.1, communityRawScore skills q.2)) with hraw
    set maxScore := (raw.map (fun q => q.2)).foldl max 0 with hmaxdef
    have hmax_pos : 0 < maxScore :=
      lt_of_lt_of_le hscore (le_foldl_max _ 0 hvmem)
    have hmax_ne : maxScore ≠ 0 := Nat.pos_iff_ne_zero.mp hmax_pos
    have hattained : maxScore ∈ raw.map (fun q => q.2) := by
      rcases foldl_max_attained (raw.map (fun q => q.2)) 0 with h | h
      · rw [← hmaxdef] at h
        exact absurd h hmax_ne
      · rw [← hmaxdef] at h
        exact h
    obtain ⟨qstar, hqstar, hqval⟩ := List.mem_map.mp hattained
    have hqfilter : qstar ∈ raw.filter (fun q => q.2 ≠ 0) := by
      rw [List.mem_filter]
      exact ⟨hqstar, by simp [hqval, hmax_ne]⟩
    have hqfilter2 : qstar ∈ (raw.filter (fun q => q.2 ≠ 0)).filter
        (fun q => q.2 = maxScore) := by
      rw [List.mem_filter]
      exact ⟨hqfilter, by simp [hqval]⟩
    have hlast : (((raw.filter (fun q => q.2 ≠ 0)).filter
        (fun q => q.2 = maxScore)).getLast?).isSome := by
      have hne : (raw.filter (fun q => decide (q.2 ≠ 0))).filter
          (fun q => decide (q.2 = maxScore)) ≠ [] := by
        intro hnil
        rw [hnil] at hqfilter2
        simp at hqfilter2
      exact List.getLast?_isSome.mpr hne
    obtain ⟨qlast, hqlast⟩ := Option.isSome_iff_exists.mp hlast
    have hqlast_mem : qlast ∈ (raw.filter (fun q => q.2 ≠ 0)).filter
        (fun q => q.2 = maxScore) :=
      List.mem_of_mem_getLast? (by rw [hqlast]; exact rfl)
    have hqlast_raw : qlast ∈ raw :=
      (List.mem_filter.mp (List.mem_filter.mp hqlast_mem).1).1
    have hkey_ne : qlast.1 ≠ "" := by
      have hkeys : qlast.1 ∈ DefaultCommunities.map (fun q => q.1) := by
        rw [hraw] at hqlast_raw
        obtain ⟨p0, hp0, he0⟩ := List.mem_map.mp hqlast_raw
        rw [← he0]
        exact List.mem_map_of_mem _ hp0
      revert hkeys
      rw [show DefaultCommunities.map (fun q => q.1) =
        ["backend", "frontend", "mobile", "devops", "data", "ml-ai", "qa-test", "analyst"]
          from rfl]
      intro hkeys he
      rw [he] at hkeys
      simp at hkeys
    rw [FindCommunities]
    rw [← hraw, ← hmaxdef, if_neg hmax_ne]
    dsimp only
    rw [hqlast]
    simp only [Option.map_some', Option.getD_some]
    rw [if_neg hkey_ne]
    dsimp only
    rw [List.map_map]
    have hsum : ((fun q : String × ℚ => q.2) ∘
        (fun q : String × Nat => (q.1, (q.2 : ℚ) / (maxScore : ℚ)))) =
        (fun q : String × Nat => (q.2 : ℚ) / (maxScore : ℚ)) := rfl
    rw [hsum]
    have hmember : ((qstar.2 : ℚ) / (maxScore : ℚ)) ∈
        (raw.filter (fun q => q.2 ≠ 0)).map (fun q => (q.2 : ℚ) / (maxScore : ℚ)) :=
      List.mem_map_of_mem _ hqfilter
    have hone : ((qstar.2 : ℚ) / (maxScore : ℚ)) = 1 := by
      rw [hqval]
      exact div_self (by exact_mod_cast hmax_ne)
    have hnonneg : ∀ x ∈ (raw.filter (fun q => q.2 ≠ 0)).map
        (fun q => (q.2 : ℚ) / (maxScore : ℚ)), 0 ≤ x := by
      intro x hx
      obtain ⟨q, hq, he⟩ := List.mem_map.mp hx
      rw [← he]
      exact div_nonneg (Nat.cast_nonneg _) (Nat.cast_nonneg _)
    calc (1 : ℚ) = (qstar.2 : ℚ) / (maxScore : ℚ) := hone.symm
      _ ≤ _ := List.single_le_sum hnonneg _ hmember

/-- Witness for C8: the skill lists [Docker, Go] and [Go, Docker] give
identical classifier output, and the normalised scores sum to at
least 1. -/
theorem c8_classifier_witness :
    FindCommunities [⟨"Docker", ""⟩, ⟨"Go", ""⟩] (3/10) =
      FindCommunities [⟨"Go", ""⟩, ⟨"Docker", ""⟩] (3/10)
    ∧ 1 ≤ ((FindCommunities [⟨"Docker", ""⟩, ⟨"Go", ""⟩] (3/10)).2.2.map
        (fun q => q.2)).sum :=
  ⟨(c8_classifier_perm_invariant_sum [⟨"Docker", ""⟩, ⟨"Go", ""⟩]
      [⟨"Go", ""⟩, ⟨"Docker", ""⟩] (3/10) (by decide)).1,
   (c8_classifier_perm_invariant_sum [⟨"Docker", ""⟩, ⟨"Go", ""⟩]
      [⟨"Go", ""⟩, ⟨"Docker", ""⟩] (3/10) (by decide)).2 (by decide)⟩

/-! ## Graph store (src: `graph.go`)

The `graph_nodes` and `graph_edges` tables are modelled as lists of rows
inside an explicit state; JSON property bags become association lists of
`PropValue`s.  `CreateNodes` performs the source's
`INSERT … ON CONFLICT (node_type, node_id) DO UPDATE SET properties =
EXCLUDED.properties` — the stored properties are REPLACED by the new
ones, not merged.  `CreateEdges` looks up both endpoints (skipping the
relationship when either is missing) and plainly inserts an edge row. -/

/-- JSON property value (the shapes used by the graph builder). -/
inductive PropValue where
  | str (s : String)
  | int (n : Int)
  | null
  deriving DecidableEq, Repr

/-- Graph entity to upsert (`Entity` in the source; `Type` is renamed
`EType` because `Type` is a Lean keyword; the unused `Confidence` field
is omitted). -/
structure Entity where
  EType : String
  Value : String
  Properties : List (String × PropValue)
  deriving DecidableEq, Repr

/-- Relationship to insert (`Relationship` in the source). -/
structure Relationship where
  SourceType : String
  SourceID : String
  TargetType : String
  TargetID : String
  EdgeType : String
  Properties : List (String × PropValue)
  deriving DecidableEq, Repr

/-- Row of `graph_nodes`. -/
structure GraphNodeRow where
  id : Nat
  node_type : String
  node_id : String
  properties : List (String × PropValue)
  deriving DecidableEq, Repr

/-- Row of `graph_edges`. -/
structure GraphEdgeRow where
  source_node_id : Nat
  target_node_id : Nat
  edge_type : String
  properties : List (String × PropValue)
  deriving DecidableEq, Repr

/-- The graph store state: the two tables and the next serial id. -/
structure GraphState where
  nodes : List GraphNodeRow
  edges : List GraphEdgeRow
  nextId : Nat
  deriving DecidableEq, Repr

/-- Empty database. -/
def emptyGraph : GraphState := { nodes := [], edges := [], nextId := 1 }

/-- One node upsert: `ON CONFLICT (node_type, node_id) DO UPDATE SET
properties = EXCLUDED.properties`. -/
def upsertNode (st : GraphState) (e : Entity) : GraphState :=
  if st.nodes.any (fun n => n.node_type = e.EType && n.node_id = e.Value) then
    { st with nodes := st.nodes.map (fun n =>
        if n.node_type = e.EType && n.node_id = e.Value then
          { n with properties := e.Properties } else n) }
  else
    { st with
        nodes := st.nodes ++ [{ id := st.nextId, node_type := e.EType, node_id := e.Value,
                                properties := e.Properties }],
        nextId := st.nextId + 1 }

/-- `CreateNodes` of the source: upsert each entity in order. -/
def CreateNodes (st : GraphState) (entities : List Entity) : GraphState :=
  entities.foldl upsertNode st

/-- Database id of the node with the given key, as the source's
`SELECT id FROM graph_nodes WHERE node_type = $1 AND node_id = $2`. -/
def findNodeId (st : GraphState) (ty v : String) : Option Nat :=
  (st.nodes.find? (fun n => n.node_type = ty && n.node_id = v)).map (fun n => n.id)

/-- One edge insert: resolve both endpoints, skip the relationship when
either is missing, else append a new edge row (plain INSERT — no
uniqueness on (source, target, type)). -/
def insertEdge (st : GraphState) (rel : Relationship) : GraphState :=
  match findNodeId st rel.SourceType rel.SourceID with
  | none => st
  | some sid =>
      match findNodeId st rel.TargetType rel.TargetID with
      | none => st
      | some tid =>
          { st with edges := st.edges ++
              [{ source_node_id := sid, target_node_id := tid,
                 edge_type := rel.EdgeType, properties := rel.Properties }] }

/-- `CreateEdges` of the source: insert each relationship in order. -/
def CreateEdges (st : GraphState) (rels : List Relationship) : GraphState :=
  rels.foldl insertEdge st

/-- Stored properties of the node with the given key. -/
def nodeProps (st : GraphState) (ty v : String) : Option (List (String × PropValue)) :=
  (st.nodes.find? (fun n => n.node_type = ty && n.node_id = v)).map (fun n => n.properties)

/-- Counterexample for C4: upserting `person_1` first with properties
`{a, b}` and then with `{a}` leaves only `{a}` — the property `b` set by
the earlier upsert and not mentioned by the later one is lost. -/
theorem c4_upsert_counterexample :
    nodeProps (CreateNodes emptyGraph
        [⟨"person", "person_1", [("a", .str "1"), ("b", .str "2")]⟩])
        "person" "person_1" = some [("a", PropValue.str "1"), ("b", PropValue.str "2")]
    ∧ nodeProps (CreateNodes (CreateNodes emptyGraph
        [⟨"person", "person_1", [("a", .str "1"), ("b", .str "2")]⟩])
        [⟨"person", "person_1", [("a", .str "1")]⟩])
        "person" "person_1" = some [("a", PropValue.str "1")] := by
  decide

theorem find?_map_update {p : GraphNodeRow → Bool} {ps : List (String × PropValue)}
    (hp : ∀ n, p { n with properties := ps } = p n) :
    ∀ (ns : List GraphNodeRow),
    (ns.map (fun n => if p n = true then { n with properties := ps } else n)).find? p =
      (ns.find? p).map (fun n => { n with properties := ps }) := by
  intro ns
  induction ns with
  | nil => rfl
  | cons n ns ih =>
      by_cases hn : p n = true
      · have hupd : p { n with properties := ps } = true := by rw [hp]; exact hn
        rw [List.map_cons, if_pos hn, List.find?_cons_of_pos _ hupd,
          List.find?_cons_of_pos _ hn]
        rfl
      · rw [List.map_cons, if_neg hn]
        rw [List.find?_cons_of_neg _ hn, List.find?_cons_of_neg _ hn, ih]

/-- C4 amended: an upsert by (node_type, node_id) replaces the stored
properties wholesale with the new entity's properties — after
`CreateNodes st [e]` the node carries exactly `e.Properties`, so earlier
properties not restated by `e` are lost. -/
theorem c4_upsert_replaces_properties (st : GraphState) (e : Entity) :
    nodeProps (CreateNodes st [e]) e.EType e.Value = some e.Properties := by
  show nodeProps (upsertNode st e) e.EType e.Value = some e.Properties
  rw [upsertNode]
  by_cases h : st.nodes.any (fun n => n.node_type = e.EType && n.node_id = e.Value) = true
  · rw [if_pos h]
    rw [nodeProps]
    obtain ⟨n₀, hn₀, hp₀⟩ := List.any_eq_true.mp h
    rw [find?_map_update (fun n => rfl)]
    have hsome : (st.nodes.find?
        (fun n => n.node_type = e.EType && n.node_id = e.Value)).isSome := by
      rw [List.find?_isSome]
      exact ⟨n₀, hn₀, hp₀⟩
    obtain ⟨nf, hnf⟩ := Option.isSome_iff_exists.mp hsome
    rw [hnf]
    rfl
  · rw [if_neg h]
    rw [nodeProps, List.find?_append]
    have hnone : st.nodes.find? (fun n => n.node_type = e.EType && n.node_id = e.Value)
        = none := by
      rw [List.find?_eq_none]
      intro n hn hp
      exact h (List.any_eq_true.mpr ⟨n, hn, hp⟩)
    rw [hnone]
    simp

/-! ## Graph ingestion from an LLM extraction (src: `graph.go`,
`BuildFromLLMExtraction`)

The extraction payload (`llm.Skill`, `llm.Company`, `llm.Education` and
the candidate map) is modelled with the fields the builder reads; the
`interface{}` year fields become `Option Int`.  The `candidate` entry of
the extraction map may fail its type assertion, hence an `Option`. -/

/-- Candidate data of an extraction. -/
structure LLMCandidate where
  Name : String
  CurrentPosition : String
  Seniority : String
  TotalExperienceYears : Option Int
  deriving DecidableEq, Repr

/-- Skill entry (`llm.Skill`; confidence omitted). -/
structure LLMSkill where
  Name : String
  Proficiency : String
  Years : Option Int
  deriving DecidableEq, Repr

/-- Company entry (`llm.Company`; duration and confidence omitted). -/
structure LLMCompany where
  Name : String
  Position : String
  IsCurrent : Bool
  deriving DecidableEq, Repr

/-- Education entry (`llm.Education`). -/
structure LLMEducation where
  Institution : String
  Degree : String
  Field : String
  GraduationYear : Option Int
  deriving DecidableEq, Repr

/-- The extraction payload handed to `BuildFromLLMExtraction`. -/
structure LLMExtraction where
  candidate : Option LLMCandidate
  skills : List LLMSkill
  companies : List LLMCompany
  education : List LLMEducation
  deriving DecidableEq, Repr

/-- `BuildFromLLMExtraction` of the source: construct the person, skill,
company and education entities and the HAS_SKILL / WORKS_AT / WORKED_AT /
GRADUATED_FROM relationships, then `CreateNodes` and `CreateEdges`.  The
edge type of the i-th company is WORKS_AT when it is marked current, or
as a fallback when i = 0; WORKED_AT otherwise.  The entity and
relationship construction is split into named helpers below, in the
source's construction order.

Person node entity of an extraction. -/
def personEntityOf (cvID : Int) (candidate : LLMCandidate) : Entity :=
  ⟨"person", "person_" ++ toString cvID,
   [("cv_id", .int cvID), ("name", .str candidate.Name),
    ("current_position", .str candidate.CurrentPosition),
    ("seniority", .str candidate.Seniority),
    ("total_experience_years",
      match candidate.TotalExperienceYears with
      | some n => .int n
      | none => .null)]⟩

/-- Skill node entities of an extraction. -/
def skillEntitiesOf (skills : List LLMSkill) : List Entity :=
  skills.map (fun skill =>
    ⟨"skill", "skill_" ++ skill.Name,
     [("name", .str skill.Name), ("proficiency", .str skill.Proficiency)]⟩)

/-- HAS_SKILL relationships of an extraction. -/
def skillRelsOf (personID : String) (skills : List LLMSkill) : List Relationship :=
  skills.map (fun skill =>
    ⟨"person", personID, "skill", "skill_" ++ skill.Name, "HAS_SKILL",
     ("proficiency", PropValue.str skill.Proficiency) ::
       (match skill.Years with
        | some y => [("years_of_experience", PropValue.int y)]
        | none => [])⟩)

/-- Company node entities of an extraction. -/
def companyEntitiesOf (companies : List LLMCompany) : List Entity :=
  companies.map (fun company =>
    ⟨"company", "company_" ++ company.Name, [("name", .str company.Name)]⟩)

/-- WORKS_AT / WORKED_AT relationship of the indexed company: WORKS_AT
when the company is marked current, or as a fallback at index 0. -/
def companyRelOf (personID : String) (q : Nat × LLMCompany) : Relationship :=
  ⟨"person", personID, "company", "company_" ++ q.2.Name,
   if q.2.IsCurrent then "WORKS_AT"
   else if q.1 = 0 then "WORKS_AT"
   else "WORKED_AT",
   [("position", .str q.2.Position)]⟩

/-- Company relationships of an extraction (indexed loop). -/
def companyRelsOf (personID : String) (companies : List LLMCompany) : List Relationship :=
  companies.enum.map (companyRelOf personID)

/-- Education node entities of an extraction. -/
def eduEntitiesOf (education : List LLMEducation) : List Entity :=
  education.map (fun edu =>
    ⟨"education", "education_" ++ edu.Institution,
     [("institution", .str edu.Institution), ("degree", .str edu.Degree),
      ("field", .str edu.Field),
      ("graduation_year",
        match edu.GraduationYear with
        | some y => .int y
        | none => .null)]⟩)

/-- GRADUATED_FROM relationships of an extraction. -/
def eduRelsOf (personID : String) (education : List LLMEducation) : List Relationship :=
  education.map (fun edu =>
    ⟨"person", personID, "education", "education_" ++ edu.Institution, "GRADUATED_FROM",
     [("degree", .str edu.Degree), ("field", .str edu.Field)]⟩)

def BuildFromLLMExtraction (st : GraphState) (cvID : Int) (ext : LLMExtraction) : GraphState :=
  match ext.candidate with
  | none => CreateEdges (CreateNodes st []) []
  | some candidate =>
      let personID := "person_" ++ toString cvID
      let entities := personEntityOf cvID candidate ::
        (skillEntitiesOf ext.skills ++ companyEntitiesOf ext.companies ++
          eduEntitiesOf ext.education)
      let relationships := skillRelsOf personID ext.skills ++
        companyRelsOf personID ext.companies ++ eduRelsOf personID ext.education
      CreateEdges (CreateNodes st entities) relationships

/-- Number of WORKS_AT edges out of the node with the given key. -/
def worksAtCount (st : GraphState) (ty v : String) : Nat :=
  match findNodeId st ty v with
  | none => 0
  | some pid => st.edges.countP (fun e => e.source_node_id = pid && e.edge_type = "WORKS_AT")

/-- Counterexample for C5: ingesting one extraction whose company list is
[Acme (not current), Globex (current)] gives the person TWO WORKS_AT
edges — Acme through the first-company fallback and Globex because it is
marked current. -/
theorem c5_worksat_counterexample :
    worksAtCount (BuildFromLLMExtraction emptyGraph 1
        ⟨some ⟨"Bob", "Dev", "Senior", some 10⟩, [],
         [⟨"Acme", "Dev", false⟩, ⟨"Globex", "Dev", true⟩], []⟩)
      "person" "person_1" = 2 := by
  decide

/-! ## Edge-creation decomposition and node-presence lemmas -/

/-- The edge row `insertEdge` would append, when both endpoints resolve. -/
def mkEdge (st : GraphState) (rel : Relationship) : Option GraphEdgeRow :=
  match findNodeId st rel.SourceType rel.SourceID with
  | none => none
  | some sid =>
      match findNodeId st rel.TargetType rel.TargetID with
      | none => none
      | some tid =>
          some { source_node_id := sid, target_node_id := tid,
                 edge_type := rel.EdgeType, properties := rel.Properties }

theorem insertEdge_nodes (st : GraphState) (rel : Relationship) :
    (insertEdge st rel).nodes = st.nodes ∧ (insertEdge st rel).nextId = st.nextId := by
  rw [insertEdge]
  cases findNodeId st rel.SourceType rel.SourceID with
  | none => exact ⟨rfl, rfl⟩
  | some sid =>
      cases findNodeId st rel.TargetType rel.TargetID with
      | none => exact ⟨rfl, rfl⟩
      | some tid => exact ⟨rfl, rfl⟩

theorem findNodeId_insertEdge (st : GraphState) (rel : Relationship) (ty v : String) :
    findNodeId (insertEdge st rel) ty v = findNodeId st ty v := by
  rw [findNodeId, findNodeId, (insertEdge_nodes st rel).1]

theorem insertEdge_edges (st : GraphState) (rel : Relationship) :
    (insertEdge st rel).edges = st.edges ++ (mkEdge st rel).toList := by
  rw [insertEdge, mkEdge]
  cases findNodeId st rel.SourceType rel.SourceID with
  | none => simp
  | some sid =>
      cases findNodeId st rel.TargetType rel.TargetID with
      | none => simp
      | some tid => simp

theorem CreateEdges_decomp :
    ∀ (rels : List Relationship) (st : GraphState),
    (CreateEdges st rels).edges = st.edges ++ rels.filterMap (mkEdge st)
    ∧ (CreateEdges st rels).nodes = st.nodes := by
  intro rels
  induction rels with
  | nil => intro st; exact ⟨(List.append_nil _).symm, rfl⟩
  | cons r rs ih =>
      intro st
      have hmk : mkEdge (insertEdge st r) = mkEdge st := by
        funext rel
        rw [mkEdge, mkEdge, findNodeId_insertEdge, findNodeId_insertEdge]
      constructor
      · show (CreateEdges (insertEdge st r) rs).edges = _
        rw [(ih (insertEdge st r)).1, insertEdge_edges, hmk, List.append_assoc]
        congr 1
        rw [List.filterMap_cons]
        cases mkEdge st r with
        | none => simp
        | some e => simp
      · show (CreateEdges (insertEdge st r) rs).nodes = st.nodes
        rw [(ih (insertEdge st r)).2, (insertEdge_nodes st r).1]

/-- Key presence in the node table. -/
def hasNode (st : GraphState) (ty v : String) : Bool :=
  st.nodes.any (fun n => n.node_type = ty && n.node_id = v)

theorem upsertNode_edges (st : GraphState) (e : Entity) : (upsertNode st e).edges = st.edges := by
  rw [upsertNode]
  by_cases h : st.nodes.any (fun n => n.node_type = e.EType && n.node_id = e.Value) = true
  · rw [if_pos h]
  · rw [if_neg h]

theorem CreateNodes_edges :
    ∀ (es : List Entity) (st : GraphState), (CreateNodes st es).edges = st.edges := by
  intro es
  induction es with
  | nil => intro st; rfl
  | cons e rest ih =>
      intro st
      show (CreateNodes (upsertNode st e) rest).edges = st.edges
      rw [ih, upsertNode_edges]

theorem hasNode_upsertNode_self (st : GraphState) (e : Entity) :
    hasNode (upsertNode st e) e.EType e.Value = true := by
  rw [hasNode, upsertNode]
  by_cases h : st.nodes.any (fun n => n.node_type = e.EType && n.node_id = e.Value) = true
  · rw [if_pos h]
    show (st.nodes.map _).any _ = true
    rw [List.any_map]
    have : ((fun n : GraphNodeRow => n.node_type = e.EType && n.node_id = e.Value) ∘
        (fun n : GraphNodeRow => if (n.node_type = e.EType && n.node_id = e.Value) = true then
          { n with properties := e.Properties } else n)) =
        (fun n : GraphNodeRow => n.node_type = e.EType && n.node_id = e.Value) := by
      funext n
      by_cases hn : (n.node_type = e.EType && n.node_id = e.Value) = true
      · simp only [Function.comp, if_pos hn]
      · simp only [Function.comp, if_neg hn]
    rw [this]
    exact h
  · rw [if_neg h]
    show (st.nodes ++ _).any _ = true
    rw [List.any_append]
    simp

theorem hasNode_upsertNode_mono (st : GraphState) (e2 : Entity) {ty v : String}
    (h : hasNode st ty v = true) : hasNode (upsertNode st e2) ty v = true := by
  rw [hasNode, upsertNode]
  by_cases hc : st.nodes.any (fun n => n.node_type = e2.EType && n.node_id = e2.Value) = true
  · rw [if_pos hc]
    show (st.nodes.map _).any _ = true
    rw [List.any_map]
    obtain ⟨n₀, hn₀, hp₀⟩ := List.any_eq_true.mp h
    refine List.any_eq_true.mpr ⟨n₀, hn₀, ?_⟩
    by_cases hn : (n₀.node_type = e2.EType && n₀.node_id = e2.Value) = true
    · simp only [Function.comp, if_pos hn]
      exact hp₀
    · simp only [Function.comp, if_neg hn]
      exact hp₀
  · rw [if_neg hc]
    show (st.nodes ++ _).any _ = true
    rw [hasNode] at h
    rw [List.any_append, h]
    rfl

theorem hasNode_CreateNodes_mono :
    ∀ (es : List Entity) (st : GraphState) {ty v : String},
    hasNode st ty v = true → hasNode (CreateNodes st es) ty v = true := by
  intro es
  induction es with
  | nil => intro st ty v h; exact h
  | cons e rest ih =>
      intro st ty v h
      exact ih (upsertNode st e) (hasNode_upsertNode_mono st e h)

theorem hasNode_CreateNodes_of_mem :
    ∀ (es : List Entity) (st : GraphState) {e : Entity}, e ∈ es →
    hasNode (CreateNodes st es) e.EType e.Value = true := by
  intro es
  induction es with
  | nil => intro st e h; simp at h
  | cons e1 rest ih =>
      intro st e h
      rcases List.mem_cons.mp h with h | h
      · subst h
        exact hasNode_CreateNodes_mono rest _ (hasNode_upsertNode_self st e)
      · exact ih _ h

theorem findNodeId_isSome_of_hasNode {st : GraphState} {ty v : String}
    (h : hasNode st ty v = true) : (findNodeId st ty v).isSome := by
  rw [findNodeId]
  obtain ⟨n, hn, hp⟩ := List.any_eq_true.mp h
  have hfind : (st.nodes.find? (fun n => n.node_type = ty && n.node_id = v)).isSome :=
    List.find?_isSome.mpr ⟨n, hn, hp⟩
  obtain ⟨x, hx⟩ := Option.isSome_iff_exists.mp hfind
  rw [hx]
  rfl

theorem mkEdge_edge_type {st : GraphState} {rel : Relationship} {e : GraphEdgeRow}
    (h : mkEdge st rel = some e) : e.edge_type = rel.EdgeType := by
  rw [mkEdge] at h
  rcases h1 : findNodeId st rel.SourceType rel.SourceID with _ | sid
  · rw [h1] at h
    simp at h
  · rw [h1] at h
    rcases h2 : findNodeId st rel.TargetType rel.TargetID with _ | tid
    · rw [h2] at h
      simp at h
    · rw [h2] at h
      injection h with h
      rw [← h]

theorem mkEdge_eq_some {st : GraphState} {rel : Relationship} {sid tid : Nat}
    (hs : findNodeId st rel.SourceType rel.SourceID = some sid)
    (ht : findNodeId st rel.TargetType rel.TargetID = some tid) :
    mkEdge st rel = some { source_node_id := sid, target_node_id := tid,
                           edge_type := rel.EdgeType, properties := rel.Properties } := by
  rw [mkEdge, hs, ht]

/-- Edges built from relationships whose edge type is not WORKS_AT never
contribute to the WORKS_AT count. -/
theorem countP_worksAt_of_edge_type_ne (st : GraphState) (p0 : Nat) :
    ∀ (rels : List Relationship), (∀ r ∈ rels, r.EdgeType ≠ "WORKS_AT") →
    (rels.filterMap (mkEdge st)).countP
        (fun e => e.source_node_id = p0 && e.edge_type = "WORKS_AT") = 0 := by
  intro rels h
  rw [List.countP_eq_zero]
  intro e he hp
  obtain ⟨r, hr, hmk⟩ := List.mem_filterMap.mp he
  have het := mkEdge_edge_type hmk
  have h2 : e.edge_type = "WORKS_AT" :=
    of_decide_eq_true ((Bool.and_eq_true _ _).mp hp).2
  exact h r hr (het.symm.trans h2)

/-- WORKS_AT count of the edges built from an indexed company suffix:
one per company that is current, plus the fallback at index 0. -/
theorem countP_worksAt_companyRels (st : GraphState) (pid : String) (p0 : Nat)
    (hp0 : findNodeId st "person" pid = some p0) :
    ∀ (cs : List LLMCompany) (i0 : Nat),
    (∀ c ∈ cs, (findNodeId st "company" ("company_" ++ c.Name)).isSome = true) →
    (((cs.enumFrom i0).map (companyRelOf pid)).filterMap (mkEdge st)).countP
        (fun e => e.source_node_id = p0 && e.edge_type = "WORKS_AT")
      = (cs.enumFrom i0).countP (fun q => q.2.IsCurrent || q.1 = 0) := by
  intro cs
  induction cs with
  | nil => intro i0 h; rfl
  | cons c rest ih =>
      intro i0 h
      obtain ⟨tc, htc⟩ := Option.isSome_iff_exists.mp (h c (List.mem_cons_self c rest))
      set erow : GraphEdgeRow :=
          { source_node_id := p0, target_node_id := tc,
            edge_type := (companyRelOf pid (i0, c)).EdgeType,
            properties := (companyRelOf pid (i0, c)).Properties } with herow
      have hmk : mkEdge st (companyRelOf pid (i0, c)) = some erow :=
        mkEdge_eq_some hp0 htc
      have henum : (c :: rest).enumFrom i0 = (i0, c) :: rest.enumFrom (i0 + 1) := rfl
      have hfm : (((c :: rest).enumFrom i0).map (companyRelOf pid)).filterMap (mkEdge st)
          = erow
            :: ((rest.enumFrom (i0 + 1)).map (companyRelOf pid)).filterMap (mkEdge st) := by
        rw [henum, List.map_cons, List.filterMap_cons, hmk]
      have hpred : (decide (erow.source_node_id = p0)
          && decide (erow.edge_type = "WORKS_AT"))
          = ((i0, c).2.IsCurrent || decide ((i0, c).1 = 0)) := by
        show (decide (p0 = p0) && decide ((companyRelOf pid (i0, c)).EdgeType = "WORKS_AT"))
          = (c.IsCurrent || decide (i0 = 0))
        rw [decide_eq_true (Eq.refl p0), Bool.true_and]
        show decide ((if c.IsCurrent then "WORKS_AT"
            else if i0 = 0 then "WORKS_AT" else "WORKED_AT") = "WORKS_AT")
          = (c.IsCurrent || decide (i0 = 0))
        cases hcur : c.IsCurrent with
        | true =>
            rw [if_pos rfl, Bool.true_or]
            exact decide_eq_true rfl
        | false =>
            rw [if_neg (by decide), Bool.false_or]
            by_cases hi : i0 = 0
            · rw [if_pos hi, hi]
              decide
            · rw [if_neg hi, decide_eq_false hi]
              decide
      rw [hfm, henum, List.countP_cons, List.countP_cons,
        ih (i0 + 1) (fun c2 hc2 => h c2 (List.mem_cons_of_mem c hc2)), hpred]

/-- C5, amended: after ingesting one extraction into the empty graph store,
the number of WORKS_AT edges out of the person node equals the number of
companies in the extraction that are marked current or stand at index 0 of
the company list — so a person can hold SEVERAL WORKS_AT edges (one per
current company, plus the first company as a fallback), not at most one. -/
theorem c5_worksat_per_company (cvID : Int) (cand : LLMCandidate)
    (skills : List LLMSkill) (companies : List LLMCompany)
    (education : List LLMEducation) :
    worksAtCount (BuildFromLLMExtraction emptyGraph cvID
        ⟨some cand, skills, companies, education⟩)
      "person" ("person_" ++ toString cvID)
      = companies.enum.countP (fun q => q.2.IsCurrent || q.1 = 0) := by
  set pid := "person_" ++ toString cvID with hpid
  set ents := personEntityOf cvID cand ::
      (skillEntitiesOf skills ++ companyEntitiesOf companies ++
        eduEntitiesOf education) with hents
  set rels := skillRelsOf pid skills ++ companyRelsOf pid companies ++
      eduRelsOf pid education with hrels
  have hred : BuildFromLLMExtraction emptyGraph cvID
      ⟨some cand, skills, companies, education⟩
      = CreateEdges (CreateNodes emptyGraph ents) rels := rfl
  rw [hred]
  set stN := CreateNodes emptyGraph ents with hstN
  have hperson : hasNode stN "person" pid = true := by
    rw [hstN]
    exact hasNode_CreateNodes_of_mem ents emptyGraph (List.mem_cons_self _ _)
  obtain ⟨p0, hp0⟩ := Option.isSome_iff_exists.mp (findNodeId_isSome_of_hasNode hperson)
  have hcomp : ∀ c ∈ companies,
      (findNodeId stN "company" ("company_" ++ c.Name)).isSome = true := by
    intro c hc
    have hmem : (⟨"company", "company_" ++ c.Name,
        [("name", PropValue.str c.Name)]⟩ : Entity) ∈ ents := by
      rw [hents]
      refine List.mem_cons_of_mem _ ?_
      refine List.mem_append_left _ ?_
      refine List.mem_append_right _ ?_
      exact List.mem_map_of_mem _ hc
    have hh := hasNode_CreateNodes_of_mem ents emptyGraph hmem
    rw [← hstN] at hh
    exact findNodeId_isSome_of_hasNode hh
  have hfind : findNodeId (CreateEdges stN rels) "person" pid = some p0 := by
    rw [findNodeId, (CreateEdges_decomp rels stN).2, ← findNodeId]
    exact hp0
  rw [worksAtCount, hfind]
  show ((CreateEdges stN rels).edges.countP
      (fun e => e.source_node_id = p0 && e.edge_type = "WORKS_AT"))
    = companies.enum.countP (fun q => q.2.IsCurrent || q.1 = 0)
  have h0 : stN.edges = [] := by
    rw [hstN, CreateNodes_edges]
    rfl
  have hedges : (CreateEdges stN rels).edges = rels.filterMap (mkEdge stN) := by
    rw [(CreateEdges_decomp rels stN).1, h0, List.nil_append]
  rw [hedges, hrels, List.filterMap_append, List.filterMap_append,
    List.countP_append, List.countP_append]
  have hskill0 : ((skillRelsOf pid skills).filterMap (mkEdge stN)).countP
      (fun e => e.source_node_id = p0 && e.edge_type = "WORKS_AT") = 0 := by
    refine countP_worksAt_of_edge_type_ne stN p0 _ ?_
    intro r hr
    obtain ⟨sk, hsk, hrs⟩ := List.mem_map.mp hr
    rw [← hrs]
    intro hcontra
    exact absurd (show ("HAS_SKILL" : String) = "WORKS_AT" from hcontra) (by decide)
  have hedu0 : ((eduRelsOf pid education).filterMap (mkEdge stN)).countP
      (fun e => e.source_node_id = p0 && e.edge_type = "WORKS_AT") = 0 := by
    refine countP_worksAt_of_edge_type_ne stN p0 _ ?_
    intro r hr
    obtain ⟨ed, hed, hrs⟩ := List.mem_map.mp hr
    rw [← hrs]
    intro hcontra
    exact absurd (show ("GRADUATED_FROM" : String) = "WORKS_AT" from hcontra) (by decide)
  rw [hskill0, hedu0, Nat.zero_add, Nat.add_zero]
  exact countP_worksAt_companyRels stN pid p0 hp0 companies 0 hcomp

/-! ## Search orchestration (`Search` in `part_012`)

`Search` launches the three retrievers concurrently, waits for three
deliveries, fuses, enriches, truncates, LLM-scores, merges, re-sorts,
filters and re-ranks.  Collaborators living outside this repository
(the BM25 SQL query, the embedding service, the LLM analyzer and scorer,
the DB enrichment) enter as parameters, each fallible one as an
`Except` or `Option` value. -/

/-- LLM evaluation of one candidate (`CandidateScore` in `part_010`; the
confidence, evidence and fit fields never influence the pipeline and are
omitted). -/
structure CandidateScore where
  PersonID : String
  Score : ℚ
  Reasoning : String
  deriving DecidableEq, Repr

/-- Lookup in the Go map `scoreMap`, built by inserting every score keyed
by its person-id: the LAST insertion for a key wins. -/
def scoreLookup (scores : List CandidateScore) (pidv : String) : Option CandidateScore :=
  scores.reverse.find? (fun sc => sc.PersonID = pidv)

/-- Step 5 of `Search`: merge the LLM scores into the candidates; a
candidate the LLM did not score keeps its fusion score. -/
def mergeLLMScores (scores : List CandidateScore) (cands : List FusedCandidate) :
    List FusedCandidate :=
  cands.map (fun c =>
    match scoreLookup scores c.PersonID with
    | some sc => { c with LLMScore := sc.Score, LLMReasoning := sc.Reasoning }
    | none => { c with LLMScore := c.FusionScore })

/-- Steps 5–6 and the final filter of `Search` on the successful-LLM
path: merge scores, re-sort by descending LLM score, drop every candidate
with an empty name or person-id, renumber ranks from 1 (the source's
final empty-check returns the same empty slice, kept here verbatim). -/
def finalizeWithScores (scores : List CandidateScore) (cands : List FusedCandidate) :
    List FusedCandidate :=
  let merged := mergeLLMScores scores cands
  let sorted := sortByLe (fun a b => decide (b.LLMScore ≤ a.LLMScore)) merged
  let valid := sorted.filter (fun c => c.Name ≠ "" && c.PersonID ≠ "")
  let ranked := assignRanks 1 valid
  if ranked = [] then [] else ranked

/-- Steps 2–6 of `Search`, once the three retriever lists have arrived.
`enrichFn` stands for the DB enrichment of one candidate
(`enrichCandidates` skips candidates with an empty person-id);
`llmScores` is `none` when the LLM scorer fails, in which case the source
copies the fusion score into the LLM score and returns WITHOUT the final
sort, filter and re-rank. -/
def searchPipeline (enrichFn : FusedCandidate → FusedCandidate)
    (llmScores : Option (List CandidateScore))
    (b : List BM25Result) (v : List VectorSearchResult) (g : List CandidateResult)
    (config : HybridSearchConfig) : List FusedCandidate :=
  let fused := fuseResults b v g config
  let enriched := fused.map (fun c => if c.PersonID = "" then c else enrichFn c)
  let top := if 0 < config.FinalTopN ∧ config.FinalTopN < (enriched.length : Int)
    then enriched.take config.FinalTopN.toNat else enriched
  match llmScores with
  | none => top.map (fun c => { c with LLMScore := c.FusionScore })
  | some scores => finalizeWithScores scores top

/-- Step 1 of `Search`: the select loop runs three times and returns the
first error delivered on `errChan`.  A bm25, vector or graph-QUERY error
is sent on `errChan` (wrapped as below) and makes `Search` return that
error; a criteria-extraction error instead makes the graph goroutine
deliver the empty list.  Which of several concurrent errors arrives first
is scheduling-dependent; this models the bm25-vector-graph priority, one
admissible schedule. -/
def SearchRetrieve (bm25Res : Except String (List BM25Result))
    (vecRes : Except String (List VectorSearchResult))
    (criteriaRes : Except String SearchCriteria)
    (graphQueryRes : SearchCriteria → Except String (List CandidateResult)) :
    Except String (List BM25Result × List VectorSearchResult × List CandidateResult) :=
  match bm25Res with
  | .error e => .error ("bm25 failed: " ++ e)
  | .ok b =>
    match vecRes with
    | .error e => .error ("vector failed: " ++ e)
    | .ok v =>
      match criteriaRes with
      | .error _ => .ok (b, v, [])
      | .ok crit =>
        match graphQueryRes crit with
        | .error e => .error ("graph failed: " ++ e)
        | .ok g => .ok (b, v, g)

/-- The whole of `Search`: retrieval, then the fusion pipeline. -/
def Search (enrichFn : FusedCandidate → FusedCandidate)
    (llmScores : Option (List CandidateScore))
    (bm25Res : Except String (List BM25Result))
    (vecRes : Except String (List VectorSearchResult))
    (criteriaRes : Except String SearchCriteria)
    (graphQueryRes : SearchCriteria → Except String (List CandidateResult))
    (config : HybridSearchConfig) : Except String (List FusedCandidate) :=
  match SearchRetrieve bm25Res vecRes criteriaRes graphQueryRes with
  | .error e => .error e
  | .ok (b, v, g) => .ok (searchPipeline enrichFn llmScores b v g config)

/-- Counterexample for C3: a bm25 retriever failure is NOT degraded to an
empty list — the whole search query fails with the wrapped error. -/
theorem c3_retriever_error_counterexample :
    Search (fun c => c) none (.error "db down") (.ok []) (.ok {}) (fun _ => .ok [])
      DefaultHybridConfig = .error "bm25 failed: db down" := rfl

/-- C3, amended: an error of the bm25 search, of the vector search or of
the graph QUERY is propagated to the caller as a failure of the whole
query (wrapped as "bm25 failed: …", "vector failed: …", "graph failed: …");
only a criteria-EXTRACTION failure is degraded, to an empty graph list,
with the query still returning a result. -/
theorem c3_error_propagation (e : String)
    (enrichFn : FusedCandidate → FusedCandidate)
    (llmScores : Option (List CandidateScore))
    (b : List BM25Result) (v : List VectorSearchResult)
    (vecRes : Except String (List VectorSearchResult))
    (criteriaRes : Except String SearchCriteria)
    (graphQueryRes : SearchCriteria → Except String (List CandidateResult))
    (crit : SearchCriteria) (config : HybridSearchConfig) :
    Search enrichFn llmScores (.error e) vecRes criteriaRes graphQueryRes config
      = .error ("bm25 failed: " ++ e)
    ∧ Search enrichFn llmScores (.ok b) (.error e) criteriaRes graphQueryRes config
      = .error ("vector failed: " ++ e)
    ∧ Search enrichFn llmScores (.ok b) (.ok v) (.ok crit) (fun _ => .error e) config
      = .error ("graph failed: " ++ e)
    ∧ Search enrichFn llmScores (.ok b) (.ok v) (.error e) graphQueryRes config
      = .ok (searchPipeline enrichFn llmScores b v [] config) :=
  ⟨rfl, rfl, rfl, rfl⟩

/-- Every candidate surviving `finalizeWithScores` has a nonempty name
and person-id (the final filter). -/
theorem mem_finalizeWithScores_props (scores : List CandidateScore)
    (cands : List FusedCandidate) (c : FusedCandidate)
    (hc : c ∈ finalizeWithScores scores cands) : c.Name ≠ "" ∧ c.PersonID ≠ "" := by
  simp only [finalizeWithScores] at hc
  split at hc
  · simp at hc
  · obtain ⟨c₀, hc₀, hceq⟩ := mem_assignRanks 1 _ hc
    obtain ⟨h1, h2⟩ := (Bool.and_eq_true _ _).mp (List.mem_filter.mp hc₀).2
    have hn : c.Name = c₀.Name := by rw [hceq]
    have hp : c.PersonID = c₀.PersonID := by rw [hceq]
    rw [hn, hp]
    exact ⟨of_decide_eq_true h1, of_decide_eq_true h2⟩

/-- Counterexample for C10: when the LLM scorer fails, the final filter
is SKIPPED, and a candidate that appears only in the BM25 list (stored
with an empty person-id) IS returned by the hybrid search. -/
theorem c10_llm_failure_counterexample :
    Search (fun c => c) none (.ok [⟨1, "Bob", 1⟩]) (.ok []) (.error "no criteria")
      (fun _ => .ok []) DefaultHybridConfig
    = .ok [⟨1, "", "Bob", 31/61, 0, 0, 93/610, 93/610, "", 1⟩] := by
  simp [Search, SearchRetrieve, searchPipeline, fuseResults, fusedMap, bm25Loop,
    vectorLoop, graphLoop, maxBM25Score, maxVectorScore, maxGraphScore, bm25Key,
    upsertWith, sortByLe, insSorted, assignRanks, DefaultHybridConfig]
  norm_num

/-- C10, amended: when LLM scoring succeeds the final filter runs, and
every candidate returned by the pipeline has a nonempty name AND a
nonempty person-id — in particular a BM25-only candidate (stored with an
empty person-id) never appears; when LLM scoring fails the filter is
skipped and such a candidate can be returned. -/
theorem c10_nonempty_ids_when_llm_succeeds (enrichFn : FusedCandidate → FusedCandidate)
    (scores : List CandidateScore) (b : List BM25Result) (v : List VectorSearchResult)
    (g : List CandidateResult) (config : HybridSearchConfig) :
    ∀ c ∈ searchPipeline enrichFn (some scores) b v g config,
      c.Name ≠ "" ∧ c.PersonID ≠ "" := by
  intro c hc
  exact mem_finalizeWithScores_props scores _ c hc

/-- Witness for the amended C10 on a concrete run: the graph-only
candidate person_a/Alice survives the pipeline with nonempty ids. -/
theorem c10_nonempty_ids_witness :
    ("Alice" : String) ≠ "" ∧ ("person_a" : String) ≠ "" :=
  c10_nonempty_ids_when_llm_succeeds (fun c => c) [] [] []
    [⟨"person_a", "Alice", "", none, [], [], [], 1, []⟩] DefaultHybridConfig
    ⟨0, "person_a", "Alice", 0, 0, 31/61, 93/610, 93/610, "", 1⟩ (by
      have hres : searchPipeline (fun c => c) (some []) [] []
          [⟨"person_a", "Alice", "", none, [], [], [], 1, []⟩] DefaultHybridConfig
          = [⟨0, "person_a", "Alice", 0, 0, 31/61, 93/610, 93/610, "", 1⟩] := by
        simp [searchPipeline, finalizeWithScores, mergeLLMScores, scoreLookup,
          fuseResults, fusedMap, bm25Loop, vectorLoop, graphLoop, maxBM25Score,
          maxVectorScore, maxGraphScore, upsertWith, sortByLe, insSorted,
          assignRanks, DefaultHybridConfig]
        norm_num
      rw [hres]
      exact List.mem_singleton.mpr rfl)

/-! ## CV upload handler (`CVUploadHandler` in `part_008`; storage in `db.go`)

The handler hashes the parsed text, returns the existing row as an HTTP
200 duplicate, or inserts a `cv_files` row plus a pending `cv_upload_jobs`
row and answers HTTP 202.  sha-256 hex encoding enters as an abstract
`hash` function — the pipeline only ever compares hashes for equality. -/

/-- Row of `cv_files` (the fields the upload path reads or writes). -/
structure CVFileRow where
  id : Nat
  filename : String
  file_type : String
  file_size : Int
  parsed_text : String
  content_hash : String
  job_id : Option Nat
  deriving DecidableEq, Repr

/-- Row of `cv_upload_jobs`. -/
structure CVJobRow where
  id : Nat
  cv_file_id : Nat
  status : String
  deriving DecidableEq, Repr

/-- State of the upload path: the two tables and their serial counters.
The graph tables are untouched by the handler itself — graph building
happens in the background job, which is only queued for a NEWLY created
job. -/
structure AppState where
  cvFiles : List CVFileRow
  jobs : List CVJobRow
  nextCVId : Nat
  nextJobId : Nat
  deriving DecidableEq, Repr

/-- `FindCVByHash`: first `cv_files` row with this content hash
(`LIMIT 1`), `none` when absent. -/
def FindCVByHash (st : AppState) (contentHash : String) : Option CVFileRow :=
  st.cvFiles.find? (fun r => r.content_hash = contentHash)

/-- `SaveCVFileWithHash`: INSERT with `ON CONFLICT (content_hash) DO
UPDATE SET uploaded_at = NOW() RETURNING id` — when a row with this hash
exists its id is returned and nothing else changes (timestamps are not
modelled); otherwise a fresh row is appended. -/
def SaveCVFileWithHash (st : AppState) (filename fileType parsedText : String)
    (fileSize : Int) (contentHash : String) : Nat × AppState :=
  match FindCVByHash st contentHash with
  | some r => (r.id, st)
  | none =>
      (st.nextCVId,
       { st with
         cvFiles := st.cvFiles ++
           [⟨st.nextCVId, filename, fileType, fileSize, parsedText, contentHash, none⟩],
         nextCVId := st.nextCVId + 1 })

/-- `CreateCVUploadJob`: append a pending job row, then stamp the job id
onto the owning `cv_files` row. -/
def CreateCVUploadJob (st : AppState) (cvFileID : Nat) : Nat × AppState :=
  (st.nextJobId,
   { st with
     jobs := st.jobs ++ [⟨st.nextJobId, cvFileID, "pending"⟩],
     nextJobId := st.nextJobId + 1,
     cvFiles := st.cvFiles.map (fun r =>
       if r.id = cvFileID then { r with job_id := some st.nextJobId } else r) })

/-- Handler response: HTTP 200 with status "duplicate", or HTTP 202 with
status "pending" and the queued job id. -/
inductive UploadOutcome where
  | duplicate (cvID : Nat) (filename : String) (fileSize : Int)
  | accepted (cvID : Nat) (jobID : Nat)
  deriving DecidableEq, Repr

/-- `CVUploadHandler` from the point where the text has been parsed.
The earlier request-validation branches and the branch where the
duplicate CHECK itself errors (the handler then continues with the
upload) are not modelled. -/
def CVUploadHandler (hash : String → String) (st : AppState)
    (fullText filename fileType : String) (fileSize : Int) :
    UploadOutcome × AppState :=
  let contentHash := hash fullText
  match FindCVByHash st contentHash with
  | some existing => (.duplicate existing.id existing.filename existing.file_size, st)
  | none =>
      let save := SaveCVFileWithHash st filename fileType fullText fileSize contentHash
      let job := CreateCVUploadJob save.2 save.1
      (.accepted save.1 job.1, job.2)

/-- When a row with the hash exists, the handler answers duplicate with
the stored row's data and leaves the state unchanged. -/
theorem CVUploadHandler_duplicate (hash : String → String) (st : AppState)
    (fullText filename fileType : String) (fileSize : Int) (row : CVFileRow)
    (hfound : FindCVByHash st (hash fullText) = some row) :
    CVUploadHandler hash st fullText filename fileType fileSize
      = (.duplicate row.id row.filename row.file_size, st) := by
  rw [CVUploadHandler, hfound]

/-- `find?` on a cons whose head satisfies the predicate (stated with an
opaque predicate so that it instantiates cleanly). -/
theorem find?_cons_pos {α : Type} (p : α → Bool) (a : α) (l : List α)
    (h : p a = true) : (a :: l).find? p = some a := by
  rw [List.find?_cons_of_pos _ h]

/-- `find?` on a cons whose head fails the predicate. -/
theorem find?_cons_neg {α : Type} (p : α → Bool) (a : α) (l : List α)
    (h : ¬ p a = true) : (a :: l).find? p = l.find? p := by
  rw [List.find?_cons_of_neg _ h]

/-- Lookup by hash after appending a fresh row with that hash and
stamping a job id: the fresh row (with its stamp) is found. -/
theorem find?_hash_map_append (h : String) (jobID cvID : Nat) (newRow : CVFileRow)
    (hnew : newRow.content_hash = h) :
    ∀ (l : List CVFileRow), (∀ r ∈ l, r.content_hash ≠ h) →
    ((l ++ [newRow]).map (fun r =>
        if r.id = cvID then { r with job_id := some jobID } else r)).find?
        (fun r => r.content_hash = h)
      = some (if newRow.id = cvID then { newRow with job_id := some jobID } else newRow) := by
  intro l
  induction l with
  | nil =>
      intro _
      simp only [List.nil_append, List.map_cons, List.map_nil]
      have hpos : (decide ((if newRow.id = cvID then { newRow with job_id := some jobID }
          else newRow).content_hash = h)) = true := by
        by_cases hid : newRow.id = cvID
        · rw [if_pos hid]
          exact decide_eq_true hnew
        · rw [if_neg hid]
          exact decide_eq_true hnew
      exact find?_cons_pos (fun r : CVFileRow => r.content_hash = h) _ _ hpos
  | cons r rest ih =>
      intro hl
      have hr : r.content_hash ≠ h := hl r (List.mem_cons_self r rest)
      rw [List.cons_append, List.map_cons]
      have hneg : ¬ (decide ((if r.id = cvID then { r with job_id := some jobID }
          else r).content_hash = h)) = true := by
        by_cases hid : r.id = cvID
        · rw [if_pos hid]
          intro hc
          exact hr (of_decide_eq_true hc)
        · rw [if_neg hid]
          intro hc
          exact hr (of_decide_eq_true hc)
      rw [find?_cons_neg (fun r : CVFileRow => r.content_hash = h) _ _ hneg]
      exact ih (fun r2 hr2 => hl r2 (List.mem_cons_of_mem r hr2))

/-- C9: uploading a résumé whose extracted text is fresh answers 202
with the next cv id and job id, and uploading the SAME text again (under
any file name, type and size) answers 200 duplicate with the SAME cv id
and changes nothing: no new row, no new job, the state after the second
upload is the state after the first. -/
theorem c9_duplicate_upload (hash : String → String) (st0 : AppState)
    (fullText filename fileType filename2 fileType2 : String)
    (fileSize fileSize2 : Int)
    (hfresh : FindCVByHash st0 (hash fullText) = none) :
    (CVUploadHandler hash st0 fullText filename fileType fileSize).1
      = .accepted st0.nextCVId st0.nextJobId
    ∧ CVUploadHandler hash
        ((CVUploadHandler hash st0 fullText filename fileType fileSize).2)
        fullText filename2 fileType2 fileSize2
      = (.duplicate st0.nextCVId filename fileSize,
         (CVUploadHandler hash st0 fullText filename fileType fileSize).2) := by
  have hl : ∀ r ∈ st0.cvFiles, r.content_hash ≠ hash fullText := by
    intro r hr hc
    exact List.find?_eq_none.mp hfresh r hr (decide_eq_true hc)
  have hst1v : (CVUploadHandler hash st0 fullText filename fileType fileSize).2
      = { st0 with
          cvFiles := (st0.cvFiles ++
              [(⟨st0.nextCVId, filename, fileType, fileSize, fullText,
                hash fullText, none⟩ : CVFileRow)]).map
            (fun r : CVFileRow => if r.id = st0.nextCVId then
              { r with job_id := some st0.nextJobId } else r),
          jobs := st0.jobs ++ [⟨st0.nextJobId, st0.nextCVId, "pending"⟩],
          nextCVId := st0.nextCVId + 1,
          nextJobId := st0.nextJobId + 1 } := by
    rw [CVUploadHandler, SaveCVFileWithHash, hfresh]
    rfl
  have hfind1 : FindCVByHash
      ((CVUploadHandler hash st0 fullText filename fileType fileSize).2) (hash fullText)
      = some ⟨st0.nextCVId, filename, fileType, fileSize, fullText,
          hash fullText, some st0.nextJobId⟩ := by
    rw [hst1v]
    show ((st0.cvFiles ++
        [(⟨st0.nextCVId, filename, fileType, fileSize, fullText,
          hash fullText, none⟩ : CVFileRow)]).map
          (fun r : CVFileRow => if r.id = st0.nextCVId then
            { r with job_id := some st0.nextJobId } else r)).find?
        (fun r : CVFileRow => r.content_hash = hash fullText) = _
    rw [find?_hash_map_append (hash fullText) st0.nextJobId st0.nextCVId
      ⟨st0.nextCVId, filename, fileType, fileSize, fullText, hash fullText, none⟩ rfl
      st0.cvFiles hl]
    rw [if_pos rfl]
  constructor
  · rw [CVUploadHandler, SaveCVFileWithHash, hfresh]
    rfl
  · exact CVUploadHandler_duplicate hash _ fullText filename2 fileType2 fileSize2 _ hfind1

/-- Witness for C9 at a concrete run: an empty store, one upload, then a
re-upload of the same text under another file name. -/
theorem c9_duplicate_upload_witness :
    ((CVUploadHandler (fun t => "h:" ++ t) ⟨[], [], 1, 1⟩ "some cv text" "cv.pdf" ".pdf" 5).1
      = .accepted 1 1)
    ∧ CVUploadHandler (fun t => "h:" ++ t)
        ((CVUploadHandler (fun t => "h:" ++ t) ⟨[], [], 1, 1⟩
          "some cv text" "cv.pdf" ".pdf" 5).2)
        "some cv text" "copy.pdf" ".pdf" 7
      = (.duplicate 1 "cv.pdf" 5,
         (CVUploadHandler (fun t => "h:" ++ t) ⟨[], [], 1, 1⟩
           "some cv text" "cv.pdf" ".pdf" 5).2) :=
  c9_duplicate_upload (fun t => "h:" ++ t) ⟨[], [], 1, 1⟩
    "some cv text" "cv.pdf" ".pdf" "copy.pdf" ".pdf" 5 7 rfl

end CvSearch
